import Mathlib

/-!
# nexa-task: path sandboxing and request pipeline

A shallow embedding of the file-manager server's path validation
(`src/middleware/pathValidator.js`), of the controller's handlers
(`src/controllers/fileManager.controller.js`), of the upload route
(`src/routes/index.routes.js`), of the backup service
(`src/services/backup.service.js`), of the error handler
(`src/middleware/errorHandler.js`) and of the two functions of Node's `path`
module they call (`resolve`, `join`, with `normalize` and the internal
`normalizeString`), in their POSIX form.

JavaScript strings are modelled as lists of characters; the path functions
only ever compare characters with `/` and `.` and count positions.
-/

namespace NexaTask

/-! ## JavaScript strings -/

/-- A JavaScript string, as the list of its characters. -/
abbrev JSString := List Char

/-- The method `String.prototype.slice(start, end)` for non-negative indices. -/
def slice (s : JSString) (start stop : Nat) : JSString :=
  (s.take stop).drop start

/-- The method `String.prototype.lastIndexOf(c)`: the last position of `c`, or `-1`. -/
def lastIndexOf (s : JSString) (c : Char) : Int :=
  if c ∈ s then ((s.length - 1 - s.reverse.indexOf c : Nat) : Int) else -1

/-- The method `String.prototype.startsWith(searchString)`. -/
def startsWith (s searchString : JSString) : Bool :=
  searchString.isPrefixOf s

/-- The character at position `i` (callers only read positions inside the string). -/
def charAt (s : JSString) (i : Nat) : Char :=
  s.getD i (Char.ofNat 0)

/-! ## Node's `path.posix` -/

/-- The constant `CHAR_FORWARD_SLASH` of Node's path module. -/
def CHAR_FORWARD_SLASH : Char := '/'

/-- The constant `CHAR_DOT` of Node's path module. -/
def CHAR_DOT : Char := '.'

/-- The function `isPosixPathSeparator` of Node's path module. -/
def isPosixPathSeparator (code : Char) : Bool :=
  code == CHAR_FORWARD_SLASH

/-- The local variables of `normalizeString` that live across loop iterations. -/
structure NormState where
  res : JSString
  lastSegmentLength : Int
  lastSlash : Int
  dots : Int
  deriving DecidableEq, Repr

/-- The part of the `dots === 2` branch that is reached when nothing is removed
from `res`: append `..` when going above the root is allowed. -/
def aboveRootStep (allowAboveRoot : Bool) (st : NormState) (i : Nat) : NormState :=
  if allowAboveRoot then
    { res := st.res ++ (if st.res.length > 0 then "/..".toList else "..".toList)
      lastSegmentLength := 2
      lastSlash := i
      dots := 0 }
  else
    { st with lastSlash := i, dots := 0 }

/-- One iteration of the loop of `normalizeString`, at position `i`, once `code`
has been determined. -/
def normalizeStep (path : JSString) (allowAboveRoot : Bool) (st : NormState)
    (i : Nat) (code : Char) : NormState :=
  if isPosixPathSeparator code then
    if st.lastSlash = (i : Int) - 1 ∨ st.dots = 1 then
      { st with lastSlash := i, dots := 0 }
    else if st.dots = 2 then
      if st.res.length < 2 ∨ st.lastSegmentLength ≠ 2 ∨
          charAt st.res (st.res.length - 1) ≠ CHAR_DOT ∨
          charAt st.res (st.res.length - 2) ≠ CHAR_DOT then
        if st.res.length > 2 then
          let lastSlashIndex := lastIndexOf st.res '/'
          if lastSlashIndex = -1 then
            { res := [], lastSegmentLength := 0, lastSlash := i, dots := 0 }
          else
            let res := slice st.res 0 lastSlashIndex.toNat
            { res := res
              lastSegmentLength := (res.length : Int) - 1 - lastIndexOf res '/'
              lastSlash := i
              dots := 0 }
        else if st.res.length ≠ 0 then
          { res := [], lastSegmentLength := 0, lastSlash := i, dots := 0 }
        else
          aboveRootStep allowAboveRoot st i
      else
        aboveRootStep allowAboveRoot st i
    else
      { res :=
          if st.res.length > 0 then
            st.res ++ '/' :: slice path (st.lastSlash + 1).toNat i
          else
            slice path (st.lastSlash + 1).toNat i
        lastSegmentLength := (i : Int) - st.lastSlash - 1
        lastSlash := i
        dots := 0 }
  else if code = CHAR_DOT ∧ st.dots ≠ -1 then
    { st with dots := st.dots + 1 }
  else
    { st with dots := -1 }

/-- The iterations `i < path.length` of the loop of `normalizeString`: `rest` is
what is left of `path` from position `i` on. -/
def normalizeLoop (path : JSString) (allowAboveRoot : Bool) :
    JSString → Nat → NormState → NormState
  | [], _, st => st
  | code :: rest, i, st =>
    normalizeLoop path allowAboveRoot rest (i + 1)
      (normalizeStep path allowAboveRoot st i code)

/-- The state of `normalizeString` before its first iteration. -/
def normInit : NormState :=
  { res := [], lastSegmentLength := 0, lastSlash := -1, dots := 0 }

/-- The function `normalizeString(path, allowAboveRoot, '/', isPosixPathSeparator)`.
In the last iteration (`i = path.length`) `code` still holds the last character
read (`0` for an empty path): the loop stops if that is a separator and
otherwise runs once more with a `/`. -/
def normalizeString (path : JSString) (allowAboveRoot : Bool) : JSString :=
  let st := normalizeLoop path allowAboveRoot path 0 normInit
  if isPosixPathSeparator (path.getLastD (Char.ofNat 0)) then st.res
  else (normalizeStep path allowAboveRoot st path.length CHAR_FORWARD_SLASH).res

/-- The loop of `path.posix.resolve`, over the arguments from the last to the
first and then the working directory, until an absolute one has been seen. The
pair is (`resolvedPath`, `resolvedAbsolute`). -/
def posixResolveLoop (cwd : JSString) : List JSString → JSString × Bool → JSString × Bool
  | _, (resolvedPath, true) => (resolvedPath, true)
  | [], (resolvedPath, false) =>
    if cwd.length = 0 then (resolvedPath, false)
    else (cwd ++ '/' :: resolvedPath, cwd.head? == some CHAR_FORWARD_SLASH)
  | path :: rest, (resolvedPath, false) =>
    if path.length = 0 then posixResolveLoop cwd rest (resolvedPath, false)
    else posixResolveLoop cwd rest
      (path ++ '/' :: resolvedPath, path.head? == some CHAR_FORWARD_SLASH)

/-- The function `path.posix.resolve(...args)`; `cwd` is what `process.cwd()` returns. -/
def posixResolve (cwd : JSString) (args : List JSString) : JSString :=
  let r := posixResolveLoop cwd args.reverse ([], false)
  let resolvedPath := normalizeString r.1 (!r.2)
  if r.2 then '/' :: resolvedPath
  else if resolvedPath.length > 0 then resolvedPath
  else ['.']

/-- The function `path.posix.normalize(path)`. -/
def posixNormalize (path : JSString) : JSString :=
  if path.length = 0 then ['.']
  else
    let isAbsolute := path.head? == some CHAR_FORWARD_SLASH
    let trailingSeparator := path.getLast? == some CHAR_FORWARD_SLASH
    let path := normalizeString path (!isAbsolute)
    if path.length = 0 then
      if isAbsolute then ['/']
      else if trailingSeparator then "./".toList else ['.']
    else
      let path := if trailingSeparator then path ++ ['/'] else path
      if isAbsolute then '/' :: path else path

/-- The loop of `path.posix.join`: `joined` is `none` while it is `undefined`. -/
def posixJoinLoop : List JSString → Option JSString → Option JSString
  | [], joined => joined
  | arg :: rest, joined =>
    if arg.length > 0 then
      match joined with
      | none => posixJoinLoop rest (some arg)
      | some j => posixJoinLoop rest (some (j ++ '/' :: arg))
    else posixJoinLoop rest joined

/-- The function `path.posix.join(...args)`. -/
def posixJoin (args : List JSString) : JSString :=
  if args.length = 0 then ['.']
  else
    match posixJoinLoop args none with
    | none => ['.']
    | some joined => posixNormalize joined

/-! ## JavaScript values, errors and requests -/

/-- The JavaScript values a parsed query string or request body can hold. Numbers
are the integers; only whether a number is zero matters here. -/
inductive JSValue where
  | undefined
  | null
  | bool (b : Bool)
  | number (n : Int)
  | string (s : JSString)
  | array (elems : List JSValue)
  | object (fields : List (String × JSValue))

/-- JavaScript's conversion to boolean, as applied by `if (value)`. -/
def JSValue.truthy : JSValue → Bool
  | .undefined => false
  | .null => false
  | .bool b => b
  | .number n => n != 0
  | .string s => !s.isEmpty
  | .array _ => true
  | .object _ => true

/-- The test `typeof value === 'string'`. -/
def JSValue.isString : JSValue → Bool
  | .string _ => true
  | _ => false

/-- An `Error` object: its message and its `statusCode` property, if it was given one. -/
structure JSError where
  message : String
  statusCode : Option Nat
  deriving DecidableEq, Repr

/-- A call of Express's `next`: `none` is `next()`, `some err` is `next(err)`. -/
abbrev NextCall := Option JSError

/-- The object `req.query`, as far as the handlers read it. -/
structure Query where
  path : JSValue := JSValue.undefined

/-- The object `req.body`, as far as the handlers read it. -/
structure Body where
  path : JSValue := JSValue.undefined
  oldPath : JSValue := JSValue.undefined
  newPath : JSValue := JSValue.undefined
  destination : JSValue := JSValue.undefined

/-- A file received by the multipart parser: where it was stored and the name the
client gave it. -/
structure UploadedFile where
  path : JSString
  originalname : JSString

/-- The request object `req`; `body` is `none` when `req.body` is `undefined`. -/
structure Request where
  query : Query := {}
  body : Option Body := none
  files : List UploadedFile := []

/-! ## `src/middleware/pathValidator.js` -/

/-- The error of the type check of `pathValidator`. -/
def invalidPathError : JSError :=
  { message := "Invalid path provided.", statusCode := some 400 }

/-- The error of the containment check of `pathValidator`. -/
def forbiddenError : JSError :=
  { message := "Forbidden: Access to this path is not allowed.", statusCode := some 403 }

/-- The constant `storageRoot = path.resolve(__dirname, '../../storage')`, the same
in the middleware, the controller and the backup service, whose modules lie in
sibling directories. -/
def storageRoot (cwd dirname : JSString) : JSString :=
  posixResolve cwd [dirname, "../../storage".toList]

/-- The array `userPaths` that `pathValidator` collects from the query and the body. -/
def collectUserPaths (req : Request) : List JSValue :=
  let userPaths : List JSValue := []
  let userPaths := if req.query.path.truthy then userPaths ++ [req.query.path] else userPaths
  match req.body with
  | none => userPaths
  | some body =>
    let userPaths := if body.path.truthy then userPaths ++ [body.path] else userPaths
    let userPaths := if body.oldPath.truthy then userPaths ++ [body.oldPath] else userPaths
    let userPaths := if body.newPath.truthy then userPaths ++ [body.newPath] else userPaths
    let userPaths :=
      if body.destination.truthy then userPaths ++ [body.destination] else userPaths
    userPaths

/-- The `for` loop of `pathValidator` with the final `next()`: the calls of `next`
the middleware makes, each `return next(error)` ending it. -/
def validateUserPaths (cwd root : JSString) : List JSValue → List NextCall
  | [] => [none]
  | userPath :: rest =>
    match userPath with
    | .string s =>
      let resolvedPath := posixResolve cwd [root, s]
      if !startsWith resolvedPath root then [some forbiddenError]
      else validateUserPaths cwd root rest
    | _ => [some invalidPathError]

/-- The middleware `pathValidator(req, res, next)`, as the list of its calls of `next`. -/
def pathValidator (cwd root : JSString) (req : Request) : List NextCall :=
  validateUserPaths cwd root (collectUserPaths req)

/-! ## `src/controllers/fileManager.controller.js` -/

/-- The `TypeError` that `path.join` throws for an argument that is not a string
(its message, which goes on to describe the value received, is cut short). -/
def invalidArgTypeError : JSError :=
  { message := "The path argument must be of type string.", statusCode := none }

/-- The helper `getFullPath(relativePath = '')`: the default applies to `undefined`
only, and `path.join` throws for any other value that is not a string. -/
def getFullPath (root : JSString) : JSValue → Except JSError JSString
  | .undefined => .ok (posixJoin [root, []])
  | .string relativePath => .ok (posixJoin [root, relativePath])
  | _ => .error invalidArgTypeError

/-- What a handler does that can be seen from outside. -/
inductive Effect where
  | next (call : NextCall)
  | json (status : Nat) (message : String)
  | download (filePath : JSString)
  | ensureDir (dir : JSString)
  | move (src dest : JSString)
  deriving DecidableEq, Repr

/-- The result of `fse.stat`, as far as `downloadFile` reads it. -/
structure Stats where
  isDirectory : Bool

/-- The error `downloadFile` raises for a directory. -/
def directoryDownloadError : JSError :=
  { message :=
      "The specified path is a directory, not a file. Only files can be downloaded."
    statusCode := some 400 }

/-- The handler `downloadFile`. The filesystem is the function `stat`; `transfer`
gives the error, if any, that `res.download` reports for a path (to its callback,
or by throwing into the surrounding `try`). -/
def downloadFile (root : JSString) (stat : JSString → Except JSError Stats)
    (transfer : JSString → Option JSError) (req : Request) : List Effect :=
  match getFullPath root req.query.path with
  | .error error => [.next (some error)]
  | .ok filePath =>
    match stat filePath with
    | .error error => [.next (some error)]
    | .ok stats =>
      if stats.isDirectory then [.next (some directoryDownloadError)]
      else
        match transfer filePath with
        | none => [.download filePath]
        | some err => [.download filePath, .next (some err)]

/-- The error of reading `req.body.path` when `req.body` is `undefined`. -/
def undefinedBodyError : JSError :=
  { message := "Cannot read properties of undefined (reading 'path')", statusCode := none }

/-- The handler `uploadFiles`, with filesystem calls that succeed: the directory is
ensured, every received file is moved into it, and the count is reported. -/
def uploadFiles (root : JSString) (req : Request) : List Effect :=
  match req.body with
  | none => [.next (some undefinedBodyError)]
  | some body =>
    match getFullPath root body.path with
    | .error error => [.next (some error)]
    | .ok destination =>
      .ensureDir destination ::
        (req.files.map fun file =>
          Effect.move file.path (posixJoin [destination, file.originalname])) ++
        [.json 201 (toString req.files.length ++ " files uploaded successfully")]

/-! ## `src/routes/index.routes.js`: the upload route -/

/-- An upload request as it reaches the router: `req` is the request after the
application-level body parsers (which leave a multipart payload alone), `fields`
and `files` are the text fields and the files of the multipart payload. -/
structure UploadRequest where
  req : Request
  fields : Body
  files : List UploadedFile

/-- The middleware `upload.array('files')` of multer: it parses the multipart
payload, puts its text fields in `req.body` and its files in `req.files`. -/
def uploadArray (u : UploadRequest) : Request :=
  { u.req with body := some u.fields, files := u.files }

/-- The route `router.post('/upload', pathValidator, upload.array('files'),
controller.uploadFiles)`: each handler runs when the one before it calls `next()`,
and a `next(err)` goes to the error handler instead. -/
def uploadRoute (cwd root : JSString) (u : UploadRequest) : List Effect :=
  match pathValidator cwd root u.req with
  | [none] => uploadFiles root (uploadArray u)
  | calls => calls.map Effect.next

/-! ## `src/services/backup.service.js` -/

/-- What the operating system and the clock supply to `createBackup`: the results
of `os.homedir()`, `os.userInfo().username` and `new Date().toISOString()`, and
the exception, if any, that a call inside the `try` block throws. -/
structure BackupEnv where
  homedir : JSString
  username : JSString
  isoNow : JSString
  thrown : Option JSError := none

/-- The expression `iso.split('T')[0]`: what comes before the first `T`. -/
def isoDate (iso : JSString) : JSString :=
  iso.takeWhile (fun c => c != 'T')

/-- The expression `os.userInfo().username || 'user'`. -/
def backupUsername (username : JSString) : JSString :=
  if username.isEmpty then "user".toList else username

/-- The constant `backupFilename`, the template `backup-${username}-${date}.zip`. -/
def backupFilename (username iso : JSString) : JSString :=
  "backup-".toList ++ backupUsername username ++ '-' :: isoDate iso ++ ".zip".toList

/-- The constant `desktopPath`. -/
def desktopPath (homedir : JSString) : JSString :=
  posixJoin [homedir, "Desktop".toList]

/-- The constant `backupFilePath`. -/
def backupFilePath (env : BackupEnv) : JSString :=
  posixJoin [desktopPath env.homedir, backupFilename env.username env.isoNow]

/-- The events of the two streams that bear on the promise: `close` and `error` of
the output stream, `error` of the archive. -/
inductive StreamEvent where
  | outputClose
  | outputError (err : JSError)
  | archiveError (err : JSError)

/-- The state of a promise. -/
inductive PromiseState where
  | pending
  | fulfilled (value : JSString)
  | rejected (reason : JSError)
  deriving DecidableEq, Repr

/-- The effect of `resolve` or `reject` on a promise: only a pending promise changes. -/
def PromiseState.settle (p outcome : PromiseState) : PromiseState :=
  match p with
  | .pending => outcome
  | _ => p

/-- The promise of `createBackup`, with the `error` events that found no listener. -/
structure BackupState where
  promise : PromiseState
  unhandled : List JSError
  deriving DecidableEq, Repr

/-- The listeners that `createBackup` registers: `close` of the output resolves
with the path, `error` of the archive rejects. No listener is registered for
`error` of the output, so that event leaves the promise as it is. -/
def backupOnEvent (backupFilePath : JSString) (st : BackupState) : StreamEvent → BackupState
  | .outputClose => { st with promise := st.promise.settle (.fulfilled backupFilePath) }
  | .archiveError err => { st with promise := st.promise.settle (.rejected err) }
  | .outputError err => { st with unhandled := st.unhandled ++ [err] }

/-- The function `createBackup`: an exception in the `try` block rejects the promise
at once; otherwise the promise is pending and the listeners answer the events of
the streams in the order in which they come. -/
def createBackup (env : BackupEnv) (events : List StreamEvent) : BackupState :=
  match env.thrown with
  | some error => { promise := .rejected error, unhandled := [] }
  | none =>
    events.foldl (backupOnEvent (backupFilePath env)) { promise := .pending, unhandled := [] }

/-! ## `src/middleware/errorHandler.js` -/

/-- The body of the response of `errorHandler`. -/
structure ErrorBody where
  status : String
  statusCode : Nat
  message : String
  deriving DecidableEq, Repr

/-- The response that goes out: its HTTP status, and its body unless the status
admits none. -/
structure ErrorResponse where
  status : Nat
  body : Option ErrorBody
  deriving DecidableEq, Repr

/-- The statuses that go out without a body: the informational ones (Node sends no
body for them), and 204, 205 and 304 (Express empties the body in `res.send`). -/
def statusWithoutBody (code : Nat) : Bool :=
  decide (code < 200) || code == 204 || code == 205 || code == 304

/-- The call `res.status(code).json(body)` of Express, on a response whose headers
have or have not been sent yet. It throws, and sends nothing, for a status
outside 100 to 999 (`none`), and also once the headers are sent, when it can set
no header any more (`none`); otherwise the response goes out with that status. -/
def statusJson (headersSent : Bool) (code : Nat) (body : ErrorBody) : Option ErrorResponse :=
  if code < 100 ∨ 999 < code then none
  else if headersSent then none
  else some { status := code, body := if statusWithoutBody code then none else some body }

/-- The expression `err.statusCode || 500`: an absent status and the status `0` are
falsy. -/
def statusCodeOr (statusCode : Option Nat) (fallback : Nat) : Nat :=
  match statusCode with
  | some n => if n != 0 then n else fallback
  | none => fallback

/-- The expression `err.message || text`: the empty message is falsy. -/
def messageOr (message fallback : String) : String :=
  if message = "" then fallback else message

/-- The middleware `errorHandler(err, req, res, next)`, as the response it sends, if
any; `headersSent` tells whether the headers of `res` have gone out before the
handler runs. The log line is left out. -/
def errorHandler (headersSent : Bool) (err : JSError) : Option ErrorResponse :=
  let statusCode := statusCodeOr err.statusCode 500
  statusJson headersSent statusCode
    { status := "error"
      statusCode := statusCode
      message := messageOr err.message "An unexpected error occurred on the server." }

/-! ## Notions used to state the properties -/

/-- The state in which the loop of `normalizeString` leaves off, before the last
iteration. -/
def normalizeRun (path : JSString) (a : Bool) : NormState :=
  normalizeLoop path a path 0 normInit

/-- What `path.resolve` guarantees of the storage root: it is absolute, it does not
end with a separator, and normalizing it changes nothing. The constant
`storageRoot` has the property wherever the module lies
(`storageRoot_isStorageRoot`). -/
def IsStorageRoot (root : JSString) : Prop :=
  root.head? = some '/' ∧ root.getLast? ≠ some '/' ∧ posixNormalize root = root

instance (root : JSString) : Decidable (IsStorageRoot root) := by
  unfold IsStorageRoot
  infer_instance

/-- Containment in the storage root: `p` is the root or lies below it. -/
def isWithin (root p : JSString) : Bool :=
  p == root || startsWith p (root ++ ['/'])

/-- The values of the five path-bearing fields of a request, in the order in which
`pathValidator` reads them. -/
def suppliedFields (req : Request) : List JSValue :=
  req.query.path ::
    (match req.body with
     | none => []
     | some body => [body.path, body.oldPath, body.newPath, body.destination])

/-- The error one field value draws, if any: the type check comes first, then the
containment check on the value resolved against the root. -/
def fieldError (cwd root : JSString) : JSValue → Option JSError
  | .string s =>
    if startsWith (posixResolve cwd [root, s]) root then none else some forbiddenError
  | _ => some invalidPathError

/-- The error of the first failing field of a request, fields without a truthy
value being skipped. -/
def firstFailure (cwd root : JSString) (req : Request) : NextCall :=
  ((suppliedFields req).filter JSValue.truthy).findSome? (fieldError cwd root)

/-- A request whose only path-bearing field is `req.query.path`. -/
def queryRequest (path : JSValue) : Request :=
  { query := { path := path } }

/-- A request whose only path-bearing field is `req.body.path`. -/
def bodyRequest (path : JSValue) : Request :=
  { body := some { path := path } }


/-- The text that joining `P` to the root produces before it is normalized: the
non-empty ones of the two with a separator in between. -/
def joinText (root P : JSString) : JSString :=
  if P.isEmpty then root else if root.isEmpty then P else root ++ '/' :: P

/-! ## `normalizeString` segment by segment -/

/-- The value of `dots` after the characters of `seg`, none of them a separator,
have been read, starting from `d`. -/
def dotsAfter (d : Int) : JSString → Int
  | [] => d
  | c :: rest => dotsAfter (if c = CHAR_DOT ∧ d ≠ -1 then d + 1 else -1) rest

/-- What the `dots === 2` branch of `normalizeString` makes of `res` and
`lastSegmentLength`. -/
def dotdotAction (a : Bool) (res : JSString) (lsl : Int) : JSString × Int :=
  let above : JSString × Int :=
    if a then (res ++ (if res.length > 0 then "/..".toList else "..".toList), 2)
    else (res, lsl)
  if res.length < 2 ∨ lsl ≠ 2 ∨ charAt res (res.length - 1) ≠ CHAR_DOT ∨
      charAt res (res.length - 2) ≠ CHAR_DOT then
    if res.length > 2 then
      if lastIndexOf res '/' = -1 then ([], 0)
      else
        (slice res 0 (lastIndexOf res '/').toNat,
          ((slice res 0 (lastIndexOf res '/').toNat).length : Int) - 1 -
            lastIndexOf (slice res 0 (lastIndexOf res '/').toNat) '/')
    else if res.length ≠ 0 then ([], 0)
    else above
  else above

/-- What reading the segment `seg` and the separator after it makes of `res` and
`lastSegmentLength`. -/
def segAction (a : Bool) (p : JSString × Int) (seg : JSString) : JSString × Int :=
  if seg = [] ∨ seg = ['.'] then p
  else if seg = ['.', '.'] then dotdotAction a p.1 p.2
  else (if p.1.length > 0 then p.1 ++ '/' :: seg else seg, (seg.length : Int))

/-- The segments of a path: the pieces between its separators. -/
def splitSlash : JSString → List JSString
  | [] => [[]]
  | c :: rest =>
    if c = '/' then [] :: splitSlash rest
    else
      match splitSlash rest with
      | [] => [[c]]
      | seg :: segs => (c :: seg) :: segs

/-- The segments put back together, a separator after each. -/
def unsplit : List JSString → JSString
  | [] => []
  | seg :: segs => seg ++ '/' :: unsplit segs

/-- A segment that `normalizeString` keeps: not empty, without a separator, and
neither `.` nor `..`. -/
def CleanSeg (s : JSString) : Prop :=
  s ≠ [] ∧ '/' ∉ s ∧ s ≠ ['.'] ∧ s ≠ ['.', '.']

/-- The path made of a stack of segments, the last segment on top. -/
def joinRev : List JSString → JSString
  | [] => []
  | [s] => s
  | s :: t :: rest => joinRev (t :: rest) ++ '/' :: s

/-- The length of the segment on top of the stack, `0` for the empty stack. -/
def headLen : List JSString → Int
  | [] => 0
  | s :: _ => (s.length : Int)

/-- What a segment does to the stack when going above the root is not allowed:
empty segments and `.` do nothing, `..` removes the top, anything else is pushed. -/
def stackAction (stack : List JSString) (seg : JSString) : List JSString :=
  if seg = [] ∨ seg = ['.'] then stack
  else if seg = ['.', '.'] then stack.tail
  else seg :: stack

/-- A segment that `normalizeString` can hold in `res`: not empty, without a
separator, and not `.`. -/
def SegOK (s : JSString) : Prop :=
  s ≠ [] ∧ '/' ∉ s ∧ s ≠ ['.']

/-- A stack that `normalizeString` can hold in `res`: below a `..` there are only
`..`, and there is none unless going above the root is allowed. -/
def StackOK (a : Bool) : List JSString → Prop
  | [] => True
  | top :: rest =>
    SegOK top ∧ (top = ['.', '.'] → a = true ∧ ∀ s ∈ rest, s = ['.', '.']) ∧ StackOK a rest

/-- What a segment does to the stack: empty segments and `.` do nothing; `..`
removes the top, or is pushed, if allowed, when there is no top to remove;
anything else is pushed. -/
def stackStep (a : Bool) (stack : List JSString) (seg : JSString) : List JSString :=
  if seg = [] ∨ seg = ['.'] then stack
  else if seg = ['.', '.'] then
    match stack with
    | [] => if a then [['.', '.']] else []
    | top :: rest =>
      if top = ['.', '.'] then (if a then ['.', '.'] :: top :: rest else top :: rest)
      else rest
  else seg :: stack

/-- A path in normal form: the path of a non-empty stack, after a separator when
it is absolute (`a` off). -/
def IsNormalPath (a : Bool) (stack : List JSString) (X : JSString) : Prop :=
  StackOK a stack ∧ stack ≠ [] ∧ X = (if a then [] else ['/']) ++ joinRev stack

/-- The directory in which a path places its file: what comes before the last
separator. -/
def parentDir (p : JSString) : JSString :=
  slice p 0 (lastIndexOf p '/').toNat

/-- The name under which a path places its file: what comes after the last
separator. -/
def fileName (p : JSString) : JSString :=
  p.drop (lastIndexOf p '/' + 1).toNat

/-! ## Lemmas on `normalizeString` -/

theorem normalizeStep_append_path (p q : JSString) (a : Bool) (st : NormState) (i : Nat)
    (c : Char) (hi : i ≤ p.length) :
    normalizeStep (p ++ q) a st i c = normalizeStep p a st i c := by
  simp only [normalizeStep, slice, List.take_append_of_le_length hi]

theorem normalizeLoop_append_path (p q : JSString) (a : Bool) (r : JSString) :
    ∀ (i : Nat) (st : NormState), i + r.length ≤ p.length →
      normalizeLoop (p ++ q) a r i st = normalizeLoop p a r i st := by
  induction r with
  | nil => intro i st _; rfl
  | cons c r ih =>
    intro i st h
    simp only [List.length_cons] at h
    simp only [normalizeLoop]
    rw [normalizeStep_append_path p q a st i c (by omega), ih (i + 1) _ (by omega)]

theorem normalizeLoop_append (path : JSString) (a : Bool) (r₁ r₂ : JSString) :
    ∀ (i : Nat) (st : NormState),
      normalizeLoop path a (r₁ ++ r₂) i st =
        normalizeLoop path a r₂ (i + r₁.length) (normalizeLoop path a r₁ i st) := by
  induction r₁ with
  | nil => intro i st; rfl
  | cons c r ih =>
    intro i st
    show normalizeLoop path a (r ++ r₂) (i + 1) _ = _
    rw [ih, List.length_cons, show i + 1 + r.length = i + (r.length + 1) by omega]
    rfl

theorem isPosixPathSeparator_slash : isPosixPathSeparator '/' = true := rfl

theorem normalizeStep_slash_lastSlash (path : JSString) (a : Bool) (st : NormState) (i : Nat) :
    (normalizeStep path a st i '/').lastSlash = i := by
  simp only [normalizeStep, aboveRootStep, isPosixPathSeparator_slash, if_true]
  split_ifs <;> rfl

theorem normalizeStep_slash_dots (path : JSString) (a : Bool) (st : NormState) (i : Nat) :
    (normalizeStep path a st i '/').dots = 0 := by
  simp only [normalizeStep, aboveRootStep, isPosixPathSeparator_slash, if_true]
  split_ifs <;> rfl

/-- A separator right after a separator changes nothing in `res`. -/
theorem normalizeStep_slash_after_slash (path : JSString) (a : Bool) (st : NormState)
    (i : Nat) (h : st.lastSlash = (i : Int) - 1) :
    (normalizeStep path a st i '/').res = st.res := by
  simp only [normalizeStep, isPosixPathSeparator_slash, if_true, h, true_or]

/-- A separator after a single dot changes nothing in `res`. -/
theorem normalizeStep_slash_after_dot (path : JSString) (a : Bool) (st : NormState)
    (i : Nat) (h : st.dots = 1) :
    (normalizeStep path a st i '/').res = st.res := by
  simp only [normalizeStep, isPosixPathSeparator_slash, if_true, h, or_true]

/-- After the loop has read a separator last, `lastSlash` is its position. -/
theorem normalizeLoop_snoc_slash_lastSlash (path : JSString) (a : Bool) (r : JSString)
    (i : Nat) (st : NormState) :
    (normalizeLoop path a (r ++ ['/']) i st).lastSlash = ((i + r.length : Nat) : Int) := by
  rw [normalizeLoop_append]
  exact normalizeStep_slash_lastSlash _ _ _ _

/-- The result for a path extended by a separator, in terms of the run over the path. -/
theorem normalizeString_snoc_slash (s : JSString) (a : Bool) :
    normalizeString (s ++ ['/']) a =
      (normalizeStep s a (normalizeRun s a) s.length '/').res := by
  have hlast : isPosixPathSeparator ((s ++ ['/']).getLastD (Char.ofNat 0)) = true := by
    rw [List.getLastD_concat]; rfl
  simp only [normalizeString, hlast, if_true]
  rw [normalizeLoop_append, normalizeLoop_append_path s ['/'] a s 0 normInit (by simp)]
  simp only [Nat.zero_add, normalizeLoop]
  rw [normalizeStep_append_path s ['/'] a _ s.length '/' (le_refl _)]
  rfl

/-- A trailing separator makes no difference to `normalizeString`. -/
theorem normalizeString_append_slash (s : JSString) (a : Bool) :
    normalizeString (s ++ ['/']) a = normalizeString s a := by
  rw [normalizeString_snoc_slash]
  by_cases hsep : isPosixPathSeparator (s.getLastD (Char.ofNat 0)) = true
  · -- `s` ends with a separator already
    have hs : ∃ r, s = r ++ ['/'] := by
      rcases List.eq_nil_or_concat s with h | ⟨r, c, h⟩
      · subst h; simp [isPosixPathSeparator, CHAR_FORWARD_SLASH] at hsep
      · subst h
        rw [List.concat_eq_append] at hsep ⊢
        rw [List.getLastD_concat] at hsep
        have hc : c = '/' := by
          simpa [isPosixPathSeparator, CHAR_FORWARD_SLASH] using hsep
        exact ⟨r, by rw [hc]⟩
    obtain ⟨r, rfl⟩ := hs
    have hl : (normalizeRun (r ++ ['/']) a).lastSlash = ((r ++ ['/']).length : Int) - 1 := by
      unfold normalizeRun
      rw [normalizeLoop_snoc_slash_lastSlash]
      simp
    rw [normalizeStep_slash_after_slash _ _ _ _ hl]
    simp only [normalizeString, hsep, if_true]
    rfl
  · simp only [normalizeString, hsep]
    rfl

/-- A trailing `/.` makes no difference to `normalizeString`. -/
theorem normalizeString_append_slash_dot (s : JSString) (a : Bool) :
    normalizeString (s ++ ['/', '.']) a = normalizeString s a := by
  rw [← normalizeString_append_slash s a, normalizeString_snoc_slash]
  have hlast : isPosixPathSeparator ((s ++ ['/', '.']).getLastD (Char.ofNat 0)) = false := by
    rw [show s ++ ['/', '.'] = (s ++ ['/']) ++ ['.'] by simp, List.getLastD_concat]; rfl
  simp only [normalizeString, hlast]
  rw [normalizeLoop_append, normalizeLoop_append_path s ['/', '.'] a s 0 normInit (by simp)]
  simp only [Nat.zero_add, normalizeLoop]
  rw [normalizeStep_append_path s ['/', '.'] a _ s.length '/' (le_refl _)]
  have hd := normalizeStep_slash_dots s a (normalizeLoop s a s 0 normInit) s.length
  have hdot : ∀ st : NormState, st.dots = 0 →
      normalizeStep (s ++ ['/', '.']) a st (s.length + 1) '.' = { st with dots := 1 } := by
    intro st h0
    simp [normalizeStep, isPosixPathSeparator, CHAR_FORWARD_SLASH, CHAR_DOT, h0]
  rw [hdot _ hd]
  exact normalizeStep_slash_after_dot _ _ _ _ rfl


/-! ## Lemmas: `normalizeString` as a fold over segments -/

theorem isPosixPathSeparator_eq_false {c : Char} (h : c ≠ '/') :
    isPosixPathSeparator c = false := by
  simpa [isPosixPathSeparator, CHAR_FORWARD_SLASH] using h

/-- Reading the characters of a segment only moves `dots`. -/
theorem normalizeLoop_segment_chars (path : JSString) (a : Bool) (seg : JSString) :
    ∀ (i : Nat) (st : NormState), '/' ∉ seg →
      normalizeLoop path a seg i st = { st with dots := dotsAfter st.dots seg } := by
  induction seg with
  | nil => intro i st _; rfl
  | cons c rest ih =>
    intro i st hno
    have hc : c ≠ '/' := fun h => hno (by simp [h])
    have hrest : '/' ∉ rest := fun h => hno (List.mem_cons_of_mem _ h)
    simp only [normalizeLoop]
    have hstep : normalizeStep path a st i c =
        { st with dots := if c = CHAR_DOT ∧ st.dots ≠ -1 then st.dots + 1 else -1 } := by
      simp only [normalizeStep, isPosixPathSeparator_eq_false hc, Bool.false_eq_true,
        if_false]
      split_ifs <;> rfl
    rw [hstep, ih (i + 1) _ hrest]
    rfl

theorem dotsAfter_neg_one (seg : JSString) : dotsAfter (-1) seg = -1 := by
  induction seg with
  | nil => rfl
  | cons c rest ih => simp [dotsAfter, ih]

/-- From a count of dots, `dots` ends as `-1` or as the count plus the length of a
segment made of dots only. -/
theorem dotsAfter_spec (seg : JSString) :
    ∀ d : Int, 0 ≤ d →
      (dotsAfter d seg = -1 ∧ ∃ c ∈ seg, c ≠ '.') ∨
      (dotsAfter d seg = d + seg.length ∧ ∀ c ∈ seg, c = '.') := by
  induction seg with
  | nil => intro d _; right; simp [dotsAfter]
  | cons c rest ih =>
    intro d hd
    by_cases hc : c = '.'
    · have hd1 : d ≠ -1 := by omega
      have : dotsAfter d (c :: rest) = dotsAfter (d + 1) rest := by
        simp [dotsAfter, CHAR_DOT, hc, hd1]
      rw [this]
      rcases ih (d + 1) (by omega) with ⟨h1, c', hc', hne⟩ | ⟨h1, h2⟩
      · left; exact ⟨h1, c', List.mem_cons_of_mem _ hc', hne⟩
      · right
        refine ⟨?_, ?_⟩
        · rw [h1]; simp only [List.length_cons]; push_cast; omega
        · intro x hx
          rcases List.mem_cons.mp hx with rfl | hx
          · exact hc
          · exact h2 x hx
    · have : dotsAfter d (c :: rest) = -1 := by
        simp [dotsAfter, CHAR_DOT, hc, dotsAfter_neg_one]
      left
      exact ⟨this, c, List.mem_cons_self _ _, hc⟩

theorem dotsAfter_eq_one_iff (seg : JSString) : dotsAfter 0 seg = 1 ↔ seg = ['.'] := by
  constructor
  · intro h
    rcases dotsAfter_spec seg 0 (le_refl _) with ⟨h1, _⟩ | ⟨h1, h2⟩
    · omega
    · rw [h1] at h
      have hl : seg.length = 1 := by omega
      obtain ⟨c, rfl⟩ := List.length_eq_one.mp hl
      rw [h2 c (List.mem_singleton_self c)]
  · rintro rfl; rfl

theorem dotsAfter_eq_two_iff (seg : JSString) : dotsAfter 0 seg = 2 ↔ seg = ['.', '.'] := by
  constructor
  · intro h
    rcases dotsAfter_spec seg 0 (le_refl _) with ⟨h1, _⟩ | ⟨h1, h2⟩
    · omega
    · rw [h1] at h
      have hl : seg.length = 2 := by omega
      obtain ⟨c, d, rfl⟩ := List.length_eq_two.mp hl
      rw [h2 c (by simp), h2 d (by simp)]
  · rintro rfl; rfl

/-- The separator after a segment: the effect on `res` and `lastSegmentLength` is
`segAction`. -/
theorem normalizeStep_after_segment (path : JSString) (a : Bool) (st : NormState)
    (seg : JSString) (i : Nat)
    (hslice : slice path i (i + seg.length) = seg)
    (hls : st.lastSlash = (i : Int) - 1) (hd : st.dots = dotsAfter 0 seg) :
    normalizeStep path a st (i + seg.length) '/' =
      { res := (segAction a (st.res, st.lastSegmentLength) seg).1
        lastSegmentLength := (segAction a (st.res, st.lastSegmentLength) seg).2
        lastSlash := ((i + seg.length : Nat) : Int)
        dots := 0 } := by
  have h1 : (st.lastSlash = ((i + seg.length : Nat) : Int) - 1) ↔ seg = [] := by
    rw [hls]
    constructor
    · intro h
      have : seg.length = 0 := by push_cast at h; omega
      exact List.length_eq_zero.mp this
    · rintro rfl; simp
  have h2 : st.dots = 1 ↔ seg = ['.'] := by rw [hd]; exact dotsAfter_eq_one_iff seg
  have h3 : st.dots = 2 ↔ seg = ['.', '.'] := by rw [hd]; exact dotsAfter_eq_two_iff seg
  have h4 : (st.lastSlash + 1).toNat = i := by rw [hls]; simp
  simp only [normalizeStep, isPosixPathSeparator_slash, if_true, h1, h2, h3, h4, hslice,
    segAction]
  by_cases e1 : seg = [] ∨ seg = ['.']
  · rw [if_pos e1, if_pos e1]
  · rw [if_neg e1, if_neg e1]
    by_cases e2 : seg = ['.', '.']
    · rw [if_pos e2, if_pos e2]
      simp only [dotdotAction, aboveRootStep]
      split_ifs <;> rfl
    · rw [if_neg e2, if_neg e2]
      have : (((i + seg.length : Nat) : Int) - ((i : Int) - 1) - 1) = (seg.length : Int) := by
        push_cast; omega
      rw [hls, this]


/-- Reading a segment and the separator after it. -/
theorem normalizeLoop_segment (path : JSString) (a : Bool) (seg : JSString) (i : Nat)
    (st : NormState) (hno : '/' ∉ seg) (hslice : slice path i (i + seg.length) = seg)
    (hls : st.lastSlash = (i : Int) - 1) (hd : st.dots = 0) :
    normalizeLoop path a (seg ++ ['/']) i st =
      { res := (segAction a (st.res, st.lastSegmentLength) seg).1
        lastSegmentLength := (segAction a (st.res, st.lastSegmentLength) seg).2
        lastSlash := ((i + seg.length : Nat) : Int)
        dots := 0 } := by
  rw [normalizeLoop_append, normalizeLoop_segment_chars path a seg i st hno]
  simp only [normalizeLoop]
  exact normalizeStep_after_segment path a _ seg i hslice hls (by rw [hd])

theorem slice_append_mid (pre seg rest : JSString) :
    slice (pre ++ (seg ++ rest)) pre.length (pre.length + seg.length) = seg := by
  unfold slice
  rw [← List.append_assoc, List.take_append_of_le_length (by simp),
    List.take_of_length_le (by simp), List.drop_left]

/-- Reading a run of segments, each followed by a separator: `res` and
`lastSegmentLength` are folded through `segAction`. -/
theorem normalizeLoop_unsplit (path : JSString) (a : Bool) (segs : List JSString) :
    ∀ (i : Nat) (st : NormState) (pre post : JSString),
      path = pre ++ (unsplit segs ++ post) → pre.length = i →
      (∀ s ∈ segs, '/' ∉ s) → st.lastSlash = (i : Int) - 1 → st.dots = 0 →
      normalizeLoop path a (unsplit segs) i st =
        { res := (segs.foldl (segAction a) (st.res, st.lastSegmentLength)).1
          lastSegmentLength := (segs.foldl (segAction a) (st.res, st.lastSegmentLength)).2
          lastSlash := ((i + (unsplit segs).length : Nat) : Int) - 1
          dots := 0 } := by
  induction segs with
  | nil =>
    intro i st pre post _ _ _ hls hd
    obtain ⟨r, l, ls, d⟩ := st
    simp only at hls hd
    simp [unsplit, normalizeLoop, hls, hd]
  | cons seg segs ih =>
    intro i st pre post hpath hpre hno hls hd
    have hseg : '/' ∉ seg := hno seg (List.mem_cons_self _ _)
    have hslice : slice path i (i + seg.length) = seg := by
      rw [hpath, ← hpre]
      simp only [unsplit, List.append_assoc]
      exact slice_append_mid pre seg _
    have hu : unsplit (seg :: segs) = (seg ++ ['/']) ++ unsplit segs := by
      simp [unsplit]
    rw [hu, normalizeLoop_append, normalizeLoop_segment path a seg i st hseg hslice hls hd]
    rw [ih (i + (seg ++ ['/']).length) _ (pre ++ (seg ++ ['/'])) post
      (by rw [hpath, hu]; simp) (by simp [hpre])
      (fun s hs => hno s (List.mem_cons_of_mem _ hs)) (by simp; omega) rfl]
    simp only [List.foldl_cons, List.length_append, List.length_singleton,
      NormState.mk.injEq, true_and, and_true]
    push_cast
    omega

theorem unsplit_splitSlash (x : JSString) : unsplit (splitSlash x) = x ++ ['/'] := by
  induction x with
  | nil => rfl
  | cons c rest ih =>
    by_cases hc : c = '/'
    · simp [splitSlash, hc, unsplit, ih]
    · simp only [splitSlash, hc, if_false]
      cases h : splitSlash rest with
      | nil => rw [h] at ih; simp [unsplit] at ih
      | cons seg segs =>
        rw [h] at ih
        simp only [unsplit] at ih ⊢
        simp [ih]

theorem splitSlash_no_slash (x : JSString) : ∀ s ∈ splitSlash x, '/' ∉ s := by
  induction x with
  | nil => intro s hs; simp [splitSlash] at hs; simp [hs]
  | cons c rest ih =>
    intro s hs
    by_cases hc : c = '/'
    · simp only [splitSlash, hc, if_true, List.mem_cons] at hs
      rcases hs with rfl | hs
      · simp
      · exact ih s hs
    · simp only [splitSlash, hc, if_false] at hs
      cases h : splitSlash rest with
      | nil =>
        rw [h] at hs
        simp at hs
        subst hs
        simpa using fun h => hc h.symm
      | cons seg segs =>
        rw [h] at hs ih
        rcases List.mem_cons.mp hs with rfl | hs'
        · have := ih seg (List.mem_cons_self _ _)
          simp only [List.mem_cons, not_or]
          exact ⟨fun h => hc h.symm, this⟩
        · exact ih s (List.mem_cons_of_mem _ hs')

/-- The function `normalizeString` folds `segAction` over the segments of the path. -/
theorem normalizeString_eq_fold (x : JSString) (a : Bool) :
    normalizeString x a = ((splitSlash x).foldl (segAction a) ([], 0)).1 := by
  rw [← normalizeString_append_slash]
  have hlast : isPosixPathSeparator ((x ++ ['/']).getLastD (Char.ofNat 0)) = true := by
    rw [List.getLastD_concat]; rfl
  simp only [normalizeString, hlast, if_true]
  have h := normalizeLoop_unsplit (x ++ ['/']) a (splitSlash x) 0 normInit [] []
    (by simp [unsplit_splitSlash]) rfl (splitSlash_no_slash x) rfl rfl
  rw [unsplit_splitSlash] at h
  rw [h]
  rfl


/-! ## Lemmas: the stack of segments -/

theorem lastIndexOf_of_not_mem {s : JSString} {c : Char} (h : c ∉ s) :
    lastIndexOf s c = -1 := by
  simp [lastIndexOf, h]

theorem lastIndexOf_append_cons (u v : JSString) (c : Char) (h : c ∉ v) :
    lastIndexOf (u ++ c :: v) c = (u.length : Int) := by
  have hm : c ∈ u ++ c :: v := by simp
  have hi : (u ++ c :: v).reverse.indexOf c = v.length := by
    rw [List.reverse_append, List.reverse_cons, List.append_assoc,
      List.indexOf_append_of_not_mem (by simpa using h)]
    simp
  simp only [lastIndexOf, hm, if_true, hi, List.length_append, List.length_cons]
  congr 1
  omega

theorem joinRev_cons_cons (s t : JSString) (rest : List JSString) :
    joinRev (s :: t :: rest) = joinRev (t :: rest) ++ '/' :: s := rfl

theorem joinRev_ne_nil (stack : List JSString) (hclean : ∀ s ∈ stack, CleanSeg s)
    (hne : stack ≠ []) : joinRev stack ≠ [] := by
  cases stack with
  | nil => exact absurd rfl hne
  | cons s rest =>
    cases rest with
    | nil => exact (hclean s (List.mem_cons_self _ _)).1
    | cons t rest => simp [joinRev]

theorem joinRev_length_pos (stack : List JSString) (hclean : ∀ s ∈ stack, CleanSeg s)
    (hne : stack ≠ []) : 0 < (joinRev stack).length :=
  List.length_pos.mpr (joinRev_ne_nil stack hclean hne)

/-- The path of a non-empty stack: what is below the top, then the top. -/
theorem joinRev_cons (s : JSString) (stack : List JSString) :
    joinRev (s :: stack) = (if stack = [] then [] else joinRev stack ++ ['/']) ++ s := by
  cases stack with
  | nil => rfl
  | cons t rest => simp [joinRev]

/-- The test by which `normalizeString` recognizes `..` at the end of `res` fails
on a clean segment. -/
theorem not_dotdot_at_end (pre s : JSString) (hs : CleanSeg s) :
    (pre ++ s).length < 2 ∨ (s.length : Int) ≠ 2 ∨
      charAt (pre ++ s) ((pre ++ s).length - 1) ≠ CHAR_DOT ∨
      charAt (pre ++ s) ((pre ++ s).length - 2) ≠ CHAR_DOT := by
  by_cases hl : s.length = 2
  · obtain ⟨c, d, rfl⟩ := List.length_eq_two.mp hl
    right; right
    have h1 : charAt (pre ++ [c, d]) ((pre ++ [c, d]).length - 1) = d := by
      unfold charAt
      rw [List.getD_append_right _ _ _ _ (by simp)]
      simp
    have h2 : charAt (pre ++ [c, d]) ((pre ++ [c, d]).length - 2) = c := by
      unfold charAt
      rw [List.getD_append_right _ _ _ _ (by simp)]
      simp
    rw [h1, h2]
    by_contra hcon
    push_neg at hcon
    apply hs.2.2.2
    rw [hcon.1, hcon.2]
    rfl
  · right; left
    intro h
    exact hl (by exact_mod_cast h)

/-- The `dots === 2` branch removes the top of the stack. -/
theorem dotdotAction_joinRev (stack : List JSString) (hclean : ∀ s ∈ stack, CleanSeg s) :
    dotdotAction false (joinRev stack) (headLen stack) =
      (joinRev stack.tail, headLen stack.tail) := by
  cases stack with
  | nil => simp [dotdotAction, joinRev, headLen]
  | cons s rest =>
    have hs : CleanSeg s := hclean s (List.mem_cons_self _ _)
    have hrest : ∀ t ∈ rest, CleanSeg t := fun t ht => hclean t (List.mem_cons_of_mem _ ht)
    have hcond := not_dotdot_at_end (if rest = [] then [] else joinRev rest ++ ['/']) s hs
    rw [← joinRev_cons] at hcond
    have hpos : 0 < s.length := List.length_pos.mpr hs.1
    simp only [dotdotAction, headLen, hcond, if_true, List.tail_cons]
    cases rest with
    | nil =>
      have hli : lastIndexOf (joinRev [s]) '/' = -1 := lastIndexOf_of_not_mem hs.2.1
      have hlen : (joinRev [s]).length ≠ 0 := by
        show s.length ≠ 0
        omega
      simp only [hli, if_true, hlen, ne_eq, not_false_eq_true]
      split_ifs <;> rfl
    | cons t rest' =>
      have ht : CleanSeg t := hrest t (List.mem_cons_self _ _)
      have hA := joinRev_length_pos (t :: rest') hrest (by simp)
      have hlen : (joinRev (s :: t :: rest')).length > 2 := by
        rw [joinRev_cons_cons]
        simp only [List.length_append, List.length_cons]
        omega
      have hli : lastIndexOf (joinRev (s :: t :: rest')) '/' =
          ((joinRev (t :: rest')).length : Int) := by
        rw [joinRev_cons_cons]
        exact lastIndexOf_append_cons _ _ _ hs.2.1
      have hne : ¬ ((joinRev (t :: rest')).length : Int) = -1 := by omega
      have hsl : slice (joinRev (s :: t :: rest')) 0 (joinRev (t :: rest')).length =
          joinRev (t :: rest') := by
        rw [joinRev_cons_cons]
        simp [slice]
      simp only [hlen, if_true, hli, hne, if_false, Int.toNat_ofNat, hsl]
      congr 1
      cases rest' with
      | nil =>
        rw [show joinRev [t] = t from rfl, lastIndexOf_of_not_mem ht.2.1]
        simp [headLen]
      | cons u rest'' =>
        rw [joinRev_cons_cons, lastIndexOf_append_cons _ _ _ ht.2.1]
        simp only [headLen, List.length_append, List.length_cons]
        push_cast
        omega

/-- On the path of a stack of clean segments, `segAction` is `stackAction`. -/
theorem segAction_joinRev (stack : List JSString) (seg : JSString)
    (hclean : ∀ s ∈ stack, CleanSeg s) :
    segAction false (joinRev stack, headLen stack) seg =
      (joinRev (stackAction stack seg), headLen (stackAction stack seg)) := by
  unfold segAction stackAction
  by_cases e1 : seg = [] ∨ seg = ['.']
  · rw [if_pos e1, if_pos e1]
  · rw [if_neg e1, if_neg e1]
    by_cases e2 : seg = ['.', '.']
    · rw [if_pos e2, if_pos e2]
      exact dotdotAction_joinRev stack hclean
    · rw [if_neg e2, if_neg e2]
      cases stack with
      | nil => simp [joinRev, headLen]
      | cons t rest =>
        have hA := joinRev_length_pos (t :: rest) hclean (by simp)
        simp only [hA, if_true, gt_iff_lt, joinRev_cons_cons, headLen]

theorem stackAction_clean (stack : List JSString) (seg : JSString)
    (hclean : ∀ s ∈ stack, CleanSeg s) (hno : '/' ∉ seg) :
    ∀ s ∈ stackAction stack seg, CleanSeg s := by
  unfold stackAction
  by_cases e1 : seg = [] ∨ seg = ['.']
  · rw [if_pos e1]; exact hclean
  · rw [if_neg e1]
    by_cases e2 : seg = ['.', '.']
    · rw [if_pos e2]
      intro s hs
      exact hclean s (List.mem_of_mem_tail hs)
    · rw [if_neg e2]
      intro s hs
      rcases List.mem_cons.mp hs with rfl | hs
      · push_neg at e1
        exact ⟨e1.1, hno, e1.2, e2⟩
      · exact hclean s hs

/-- Folding `segAction` from the path of a clean stack is folding `stackAction`. -/
theorem foldl_segAction_joinRev (segs : List JSString) :
    ∀ stack : List JSString, (∀ s ∈ stack, CleanSeg s) → (∀ s ∈ segs, '/' ∉ s) →
      segs.foldl (segAction false) (joinRev stack, headLen stack) =
        (joinRev (segs.foldl stackAction stack), headLen (segs.foldl stackAction stack)) ∧
      ∀ s ∈ segs.foldl stackAction stack, CleanSeg s := by
  induction segs with
  | nil => intro stack hclean _; exact ⟨rfl, hclean⟩
  | cons seg segs ih =>
    intro stack hclean hno
    simp only [List.foldl_cons]
    rw [segAction_joinRev stack seg hclean]
    exact ih _ (stackAction_clean stack seg hclean (hno seg (List.mem_cons_self _ _)))
      (fun s hs => hno s (List.mem_cons_of_mem _ hs))

/-- With `allowAboveRoot` off, `normalizeString` is the path of the stack that
`stackAction` builds from the segments. -/
theorem normalizeString_eq_joinRev (x : JSString) :
    normalizeString x false = joinRev ((splitSlash x).foldl stackAction []) ∧
      ∀ s ∈ (splitSlash x).foldl stackAction [], CleanSeg s := by
  have h := foldl_segAction_joinRev (splitSlash x) [] (by simp) (splitSlash_no_slash x)
  refine ⟨?_, h.2⟩
  rw [normalizeString_eq_fold]
  have h1 := h.1
  simp only [joinRev, headLen] at h1
  rw [h1]

/-! ## Lemmas on `resolve`, `join` and `normalize` -/

theorem head?_ne_nil {s : JSString} {c : Char} (h : s.head? = some c) : s ≠ [] := by
  intro hs; subst hs; simp at h

/-- Resolving a relative, non-empty path against an absolute root. -/
theorem posixResolve_relative (cwd root P : JSString) (hroot : root.head? = some '/')
    (hP : P ≠ []) (hrel : P.head? ≠ some '/') :
    posixResolve cwd [root, P] = '/' :: normalizeString (root ++ '/' :: P) false := by
  have hr : root ≠ [] := head?_ne_nil hroot
  have hPl : P.length ≠ 0 := by simpa using hP
  have hrl : root.length ≠ 0 := by simpa using hr
  have hb : (P.head? == some '/') = false := by simpa using hrel
  have e : posixResolveLoop cwd [root, P].reverse ([], false) =
      (root ++ '/' :: (P ++ ['/']), true) := by
    simp [posixResolveLoop, hPl, hrl, hroot, hb, CHAR_FORWARD_SLASH]
  simp only [posixResolve, e, Bool.not_true, if_true]
  rw [show root ++ '/' :: (P ++ ['/']) = (root ++ '/' :: P) ++ ['/'] by simp,
    normalizeString_append_slash]

/-- Resolving the empty path against an absolute root. -/
theorem posixResolve_empty (cwd root : JSString) (hroot : root.head? = some '/') :
    posixResolve cwd [root, []] = '/' :: normalizeString root false := by
  have hrl : root.length ≠ 0 := by simpa using head?_ne_nil hroot
  have e : posixResolveLoop cwd [root, []].reverse ([], false) = (root ++ ['/'], true) := by
    simp [posixResolveLoop, hrl, hroot, CHAR_FORWARD_SLASH]
  simp only [posixResolve, e, Bool.not_true, if_true]
  rw [normalizeString_append_slash]

/-- Resolving a path that begins with a separator: the root plays no part. -/
theorem posixResolve_absolute (cwd root P : JSString) (habs : P.head? = some '/') :
    posixResolve cwd [root, P] = '/' :: normalizeString P false := by
  have hPl : P.length ≠ 0 := by simpa using head?_ne_nil habs
  have e : posixResolveLoop cwd [root, P].reverse ([], false) = (P ++ ['/'], true) := by
    simp [posixResolveLoop, hPl, habs, CHAR_FORWARD_SLASH]
  simp only [posixResolve, e, Bool.not_true, if_true]
  rw [normalizeString_append_slash]

/-- Normalizing an absolute path. -/
theorem posixNormalize_absolute (path : JSString) (habs : path.head? = some '/') :
    posixNormalize path =
      if normalizeString path false = [] then ['/']
      else '/' :: (normalizeString path false ++
        if path.getLast? = some '/' then ['/'] else []) := by
  have hl : path.length ≠ 0 := by simpa using head?_ne_nil habs
  simp only [posixNormalize, hl, if_false, habs, CHAR_FORWARD_SLASH, beq_self_eq_true,
    Bool.not_true, if_true, List.length_eq_zero, beq_iff_eq]
  split_ifs <;> simp

/-- Joining a non-empty path to a non-empty root. -/
theorem posixJoin_pair (root P : JSString) (hr : root ≠ []) (hP : P ≠ []) :
    posixJoin [root, P] = posixNormalize (root ++ '/' :: P) := by
  have hPl : 0 < P.length := List.length_pos.mpr hP
  have hrl : 0 < root.length := List.length_pos.mpr hr
  simp [posixJoin, posixJoinLoop, hPl, hrl]

/-- Joining the empty path to a non-empty root. -/
theorem posixJoin_empty (root : JSString) (hr : root ≠ []) :
    posixJoin [root, []] = posixNormalize root := by
  have hrl : 0 < root.length := List.length_pos.mpr hr
  simp [posixJoin, posixJoinLoop, hrl]

/-- A storage root is `/` followed by its own, non-empty, normal form. -/
theorem IsStorageRoot.eq_cons {root : JSString} (h : IsStorageRoot root) :
    normalizeString root false ≠ [] ∧ root = '/' :: normalizeString root false := by
  obtain ⟨habs, hlast, hnorm⟩ := h
  rw [posixNormalize_absolute root habs, if_neg hlast, List.append_nil] at hnorm
  by_cases hn : normalizeString root false = []
  · rw [if_pos hn] at hnorm
    rw [← hnorm] at hlast
    simp at hlast
  · rw [if_neg hn] at hnorm
    exact ⟨hn, hnorm.symm⟩

theorem IsStorageRoot.ne_nil {root : JSString} (h : IsStorageRoot root) : root ≠ [] :=
  head?_ne_nil h.1

/-- The path the controller derives, for a relative path: what the validator
resolves, with the trailing separator of the input kept. -/
theorem posixJoin_eq_resolve (cwd root P : JSString) (h : IsStorageRoot root)
    (hrel : P.head? ≠ some '/')
    (hne : P ≠ [] → normalizeString (root ++ '/' :: P) false ≠ []) :
    posixJoin [root, P] =
      posixResolve cwd [root, P] ++ if P.getLast? = some '/' then ['/'] else [] := by
  by_cases hP : P = []
  · subst hP
    rw [posixJoin_empty root h.ne_nil, posixResolve_empty cwd root h.1, h.2.2]
    simpa using h.eq_cons.2
  · rw [posixJoin_pair root P h.ne_nil hP, posixResolve_relative cwd root P h.1 hP hrel]
    have habs : (root ++ '/' :: P).head? = some '/' := by
      rw [List.head?_append_of_ne_nil _ h.ne_nil]; exact h.1
    rw [posixNormalize_absolute _ habs, if_neg (hne hP)]
    have hl : (root ++ '/' :: P).getLast? = P.getLast? := by
      obtain ⟨c, t, rfl⟩ := List.exists_cons_of_ne_nil hP
      rw [show root ++ '/' :: c :: t = (root ++ ['/']) ++ c :: t by simp,
        List.getLast?_append_cons]
    rw [hl]
    rfl

/-- A root without a trailing separator that is a prefix of `x` followed by a
separator is a prefix of `x`. -/
theorem prefix_of_prefix_snoc {root x : JSString} (hlast : root.getLast? ≠ some '/')
    (h : root <+: x ++ ['/']) : root <+: x := by
  obtain ⟨t, ht⟩ := h
  rcases List.eq_nil_or_concat t with rfl | ⟨u, c, rfl⟩
  · exfalso
    apply hlast
    rw [List.append_nil] at ht
    rw [ht, List.getLast?_concat]
  · rw [List.concat_eq_append, ← List.append_assoc] at ht
    exact ⟨u, (List.append_inj' ht rfl).1⟩


/-! ## Lemmas: what `path.resolve` returns is a storage root -/

theorem splitSlash_of_no_slash (s : JSString) (h : '/' ∉ s) : splitSlash s = [s] := by
  induction s with
  | nil => rfl
  | cons c rest ih =>
    have hc : c ≠ '/' := fun e => h (by simp [e])
    have hr : '/' ∉ rest := fun e => h (List.mem_cons_of_mem _ e)
    simp [splitSlash, hc, ih hr]

theorem splitSlash_append_slash (u v : JSString) :
    splitSlash (u ++ '/' :: v) = splitSlash u ++ splitSlash v := by
  induction u with
  | nil => simp [splitSlash]
  | cons c rest ih =>
    by_cases hc : c = '/'
    · simp [splitSlash, hc, ih]
    · have e : splitSlash (c :: (rest ++ '/' :: v)) =
          (match splitSlash (rest ++ '/' :: v) with
            | [] => [[c]]
            | seg :: segs => (c :: seg) :: segs) := by
        simp only [splitSlash, hc, if_false]
      rw [List.cons_append, e, ih]
      simp only [splitSlash, hc, if_false]
      cases h : splitSlash rest with
      | nil =>
        have := unsplit_splitSlash rest
        rw [h] at this
        simp [unsplit] at this
      | cons seg segs => rfl

theorem splitSlash_joinRev (stack : List JSString) (hclean : ∀ s ∈ stack, CleanSeg s)
    (hne : stack ≠ []) : splitSlash (joinRev stack) = stack.reverse := by
  induction stack with
  | nil => exact absurd rfl hne
  | cons s rest ih =>
    have hs : CleanSeg s := hclean s (List.mem_cons_self _ _)
    cases rest with
    | nil => simpa [joinRev] using splitSlash_of_no_slash s hs.2.1
    | cons t rest' =>
      rw [joinRev_cons_cons, splitSlash_append_slash,
        ih (fun u hu => hclean u (List.mem_cons_of_mem _ hu)) (by simp),
        splitSlash_of_no_slash s hs.2.1]
      simp

theorem stackAction_of_clean (stack : List JSString) (s : JSString) (hs : CleanSeg s) :
    stackAction stack s = s :: stack := by
  unfold stackAction
  rw [if_neg (by push_neg; exact ⟨hs.1, hs.2.2.1⟩), if_neg hs.2.2.2]

theorem foldl_stackAction_reverse (stack : List JSString)
    (hclean : ∀ s ∈ stack, CleanSeg s) (base : List JSString) :
    stack.reverse.foldl stackAction base = stack ++ base := by
  induction stack with
  | nil => rfl
  | cons s rest ih =>
    rw [List.reverse_cons, List.foldl_append,
      ih (fun u hu => hclean u (List.mem_cons_of_mem _ hu))]
    simp only [List.foldl_cons, List.foldl_nil]
    rw [stackAction_of_clean _ s (hclean s (List.mem_cons_self _ _))]
    rfl

/-- A path of clean segments is left as it is by `normalizeString`, with or without
a leading separator. -/
theorem normalizeString_joinRev (stack : List JSString)
    (hclean : ∀ s ∈ stack, CleanSeg s) :
    normalizeString (joinRev stack) false = joinRev stack ∧
      normalizeString ('/' :: joinRev stack) false = joinRev stack := by
  have key : (splitSlash (joinRev stack)).foldl stackAction [] = stack := by
    by_cases hne : stack = []
    · subst hne; rfl
    · rw [splitSlash_joinRev stack hclean hne, foldl_stackAction_reverse stack hclean]
      simp
  constructor
  · rw [(normalizeString_eq_joinRev _).1, key]
  · rw [(normalizeString_eq_joinRev _).1]
    have : splitSlash ('/' :: joinRev stack) = [] :: splitSlash (joinRev stack) := by
      simp [splitSlash]
    rw [this, List.foldl_cons]
    have h0 : stackAction [] [] = [] := rfl
    rw [h0, key]

/-- Normalizing twice is normalizing once. -/
theorem normalizeString_idem (x : JSString) :
    normalizeString (normalizeString x false) false = normalizeString x false := by
  obtain ⟨h1, h2⟩ := normalizeString_eq_joinRev x
  rw [h1]
  exact (normalizeString_joinRev _ h2).1

theorem joinRev_getLast? (s : JSString) (rest : List JSString) (hs : CleanSeg s) :
    (joinRev (s :: rest)).getLast? ≠ some '/' := by
  rw [joinRev_cons]
  obtain ⟨u, c, hu⟩ : ∃ u c, s = u ++ [c] := by
    rcases List.eq_nil_or_concat s with h | ⟨u, c, h⟩
    · exact absurd h hs.1
    · exact ⟨u, c, by rw [h, List.concat_eq_append]⟩
  rw [hu, ← List.append_assoc, List.getLast?_concat]
  intro h
  have hc : c = '/' := Option.some.inj h
  apply hs.2.1
  rw [hu, hc]
  simp

/-- An absolute path of clean segments, one at least, is a storage root. -/
theorem isStorageRoot_of_stack (stack : List JSString) (hclean : ∀ s ∈ stack, CleanSeg s)
    (hne : stack ≠ []) : IsStorageRoot ('/' :: joinRev stack) := by
  obtain ⟨s, rest, rfl⟩ := List.exists_cons_of_ne_nil hne
  have hs : CleanSeg s := hclean s (List.mem_cons_self _ _)
  have hj := joinRev_ne_nil (s :: rest) hclean hne
  have hlast : ('/' :: joinRev (s :: rest)).getLast? ≠ some '/' := by
    obtain ⟨c, t, hct⟩ := List.exists_cons_of_ne_nil hj
    have := joinRev_getLast? s rest hs
    rw [hct] at this ⊢
    rwa [List.getLast?_cons_cons]
  refine ⟨rfl, hlast, ?_⟩
  rw [posixNormalize_absolute ('/' :: joinRev (s :: rest)) rfl,
    (normalizeString_joinRev _ hclean).2, if_neg hj,
    if_neg hlast, List.append_nil]

/-- The constant `storageRoot` is a storage root, wherever the module lies. -/
theorem storageRoot_isStorageRoot (cwd dirname : JSString)
    (habs : dirname.head? = some '/') : IsStorageRoot (storageRoot cwd dirname) := by
  have hlit : "../../storage".toList = ['.', '.'] ++ '/' :: (['.', '.'] ++ '/' ::
      ['s', 't', 'o', 'r', 'a', 'g', 'e']) := rfl
  unfold storageRoot
  rw [posixResolve_relative cwd dirname _ habs (by decide) (by decide)]
  obtain ⟨h1, h2⟩ := normalizeString_eq_joinRev (dirname ++ '/' :: "../../storage".toList)
  rw [h1]
  have hsplit : splitSlash (dirname ++ '/' :: "../../storage".toList) =
      splitSlash dirname ++ [['.', '.'], ['.', '.'], ['s', 't', 'o', 'r', 'a', 'g', 'e']] := by
    rw [splitSlash_append_slash]
    rfl
  rw [hsplit, List.foldl_append] at h2 ⊢
  have hfold : ∀ S : List JSString,
      [['.', '.'], ['.', '.'], ['s', 't', 'o', 'r', 'a', 'g', 'e']].foldl stackAction S =
        ['s', 't', 'o', 'r', 'a', 'g', 'e'] :: S.tail.tail := by
    intro S
    simp [stackAction]
  rw [hfold] at h2 ⊢
  exact isStorageRoot_of_stack _ h2 (by simp)

/-! ## Lemmas on `pathValidator` -/

theorem startsWith_iff (s p : JSString) : startsWith s p = true ↔ p <+: s := by
  unfold startsWith
  exact List.isPrefixOf_iff_prefix

theorem startsWith_self (s : JSString) : startsWith s s = true :=
  (startsWith_iff s s).mpr (List.prefix_refl s)

/-- The array `userPaths` holds the truthy field values, in field order. -/
theorem collectUserPaths_eq_filter (req : Request) :
    collectUserPaths req = (suppliedFields req).filter JSValue.truthy := by
  obtain ⟨⟨qp⟩, body, files⟩ := req
  cases body with
  | none =>
    simp only [collectUserPaths, suppliedFields, List.nil_append]
    cases hq : qp.truthy <;> simp [List.filter, hq]
  | some b =>
    obtain ⟨p, o, n, d⟩ := b
    simp only [collectUserPaths, suppliedFields, List.nil_append]
    cases hq : qp.truthy <;> cases hp : p.truthy <;> cases ho : o.truthy <;>
      cases hn : n.truthy <;> cases hd : d.truthy <;> simp [List.filter, hq, hp, ho, hn, hd]

/-- The loop of `pathValidator` reports the error of the first failing entry. -/
theorem validateUserPaths_eq_findSome (cwd root : JSString) (l : List JSValue) :
    validateUserPaths cwd root l = [l.findSome? (fieldError cwd root)] := by
  induction l with
  | nil => rfl
  | cons v l ih =>
    cases v with
    | string s =>
      simp only [validateUserPaths, List.findSome?, fieldError]
      cases h : startsWith (posixResolve cwd [root, s]) root
      · simp
      · simpa using ih
    | _ => simp [validateUserPaths, List.findSome?, fieldError]

theorem pathValidator_eq_firstFailure (cwd root : JSString) (req : Request) :
    pathValidator cwd root req = [firstFailure cwd root req] := by
  unfold pathValidator firstFailure
  rw [validateUserPaths_eq_findSome, collectUserPaths_eq_filter]

theorem fieldError_eq_none_iff (cwd root : JSString) (v : JSValue) :
    fieldError cwd root v = none ↔
      ∃ s, v = .string s ∧ startsWith (posixResolve cwd [root, s]) root = true := by
  cases v with
  | string s =>
    simp only [fieldError, JSValue.string.injEq, exists_eq_left']
    cases h : startsWith (posixResolve cwd [root, s]) root <;> simp
  | _ => simp [fieldError]

theorem fieldError_cases (cwd root : JSString) (v : JSValue) (e : JSError)
    (h : fieldError cwd root v = some e) : e = invalidPathError ∨ e = forbiddenError := by
  cases v with
  | string s =>
    simp only [fieldError] at h
    split_ifs at h
    right; exact (Option.some.inj h).symm
  | _ =>
    simp only [fieldError] at h
    left; exact (Option.some.inj h).symm

theorem fieldError_of_not_string (cwd root : JSString) (v : JSValue)
    (h : v.isString = false) : fieldError cwd root v = some invalidPathError := by
  cases v <;> simp_all [fieldError, JSValue.isString]

/-- The verdict on a request that carries one string in `req.query.path`. -/
theorem pathValidator_queryRequest (cwd root P : JSString) (hP : P ≠ []) :
    pathValidator cwd root (queryRequest (.string P)) =
      [if startsWith (posixResolve cwd [root, P]) root then none else some forbiddenError] := by
  have ht : (JSValue.string P).truthy = true := by
    cases P with
    | nil => exact absurd rfl hP
    | cons c t => rfl
  rw [pathValidator_eq_firstFailure]
  simp [firstFailure, suppliedFields, queryRequest, List.filter, ht, List.findSome?, fieldError]
  split_ifs <;> rfl


/-! ## Containment (C1, C2) -/

/-- C1 (fails on the code). A path that `pathValidator` accepts need not lead the
controller into the storage root: with the root `/srv/app/storage`, the input
`../storage2/x` passes the prefix test and `getFullPath` yields
`/srv/app/storage2/x`, a sibling of the root; and `/../srv/app/storage/x` passes
because `path.resolve` reads it as absolute, while `getFullPath` joins it to
`/srv/app/srv/app/storage/x`. -/
theorem pathValidator_accepts_path_outside_root :
    storageRoot "/".toList "/srv/app/src/middleware".toList = "/srv/app/storage".toList ∧
    pathValidator "/".toList "/srv/app/storage".toList
      (queryRequest (.string "../storage2/x".toList)) = [none] ∧
    getFullPath "/srv/app/storage".toList (.string "../storage2/x".toList) =
      .ok "/srv/app/storage2/x".toList ∧
    isWithin "/srv/app/storage".toList "/srv/app/storage2/x".toList = false ∧
    pathValidator "/".toList "/srv/app/storage".toList
      (queryRequest (.string "/../srv/app/storage/x".toList)) = [none] ∧
    getFullPath "/srv/app/storage".toList (.string "/../srv/app/storage/x".toList) =
      .ok "/srv/app/srv/app/storage/x".toList ∧
    isWithin "/srv/app/storage".toList "/srv/app/srv/app/storage/x".toList = false :=
  ⟨by decide, by decide, rfl, by decide, by decide, rfl, by decide⟩

/-- C2 (fails on the code). A traversal whose normalized location is outside the
storage root is passed on without the 403 error when that location still has the
root's text as a prefix: with the root `/srv/app/storage`, the input
`a/../../storage-backup/keys` is normalized to `/srv/app/storage-backup/keys`,
which is neither the root nor below it, and `pathValidator` calls `next()`. -/
theorem pathValidator_passes_traversal_to_sibling :
    posixResolve "/".toList ["/srv/app/storage".toList, "a/../../storage-backup/keys".toList] =
      "/srv/app/storage-backup/keys".toList ∧
    posixJoin ["/srv/app/storage".toList, "a/../../storage-backup/keys".toList] =
      "/srv/app/storage-backup/keys".toList ∧
    isWithin "/srv/app/storage".toList "/srv/app/storage-backup/keys".toList = false ∧
    pathValidator "/".toList "/srv/app/storage".toList
      (queryRequest (.string "a/../../storage-backup/keys".toList)) = [none] ∧
    pathValidator "/".toList "/srv/app/storage".toList
      (bodyRequest (.string "a/../../storage-backup/keys".toList)) = [none] := by
  decide

/-! ## Validation against resolution (C3, C4, C6) -/

/-- C3, as stated, fails. For the accepted input `a/` the validator checks
`/srv/app/storage/a` and the controller derives `/srv/app/storage/a/`; for the
accepted input `/srv/app/storage/x` the validator checks that very path and the
controller derives `/srv/app/storage/srv/app/storage/x`. -/
theorem resolve_join_differ :
    (pathValidator "/".toList "/srv/app/storage".toList
        (queryRequest (.string "a/".toList)) = [none] ∧
      posixResolve "/".toList ["/srv/app/storage".toList, "a/".toList] =
        "/srv/app/storage/a".toList ∧
      getFullPath "/srv/app/storage".toList (.string "a/".toList) =
        .ok "/srv/app/storage/a/".toList) ∧
    (pathValidator "/".toList "/srv/app/storage".toList
        (queryRequest (.string "/srv/app/storage/x".toList)) = [none] ∧
      posixResolve "/".toList ["/srv/app/storage".toList, "/srv/app/storage/x".toList] =
        "/srv/app/storage/x".toList ∧
      getFullPath "/srv/app/storage".toList (.string "/srv/app/storage/x".toList) =
        .ok "/srv/app/storage/srv/app/storage/x".toList) :=
  ⟨⟨by decide, by decide, rfl⟩, by decide, by decide, rfl⟩

/-- C3, amended. For a storage root and an accepted string `P` that does not begin
with a separator, the path the controller derives is the path the validator
checked, followed by one separator when `P` ends with a separator. -/
theorem getFullPath_eq_resolve_of_relative (cwd root P : JSString)
    (hroot : IsStorageRoot root) (hrel : P.head? ≠ some '/')
    (hacc : pathValidator cwd root (queryRequest (.string P)) = [none]) :
    getFullPath root (.string P) =
      .ok (posixResolve cwd [root, P] ++ if P.getLast? = some '/' then ['/'] else []) := by
  have hne : P ≠ [] → normalizeString (root ++ '/' :: P) false ≠ [] := by
    intro hP hn
    rw [pathValidator_queryRequest cwd root P hP] at hacc
    have hs : startsWith (posixResolve cwd [root, P]) root = true := by
      by_contra hc
      simp [hc] at hacc
    rw [posixResolve_relative cwd root P hroot.1 hP hrel, hn, startsWith_iff,
      hroot.eq_cons.2] at hs
    have hlen := hs.length_le
    have hpos := List.length_pos.mpr hroot.eq_cons.1
    simp only [List.length_cons, List.length_nil] at hlen
    omega
  show Except.ok (posixJoin [root, P]) = _
  rw [posixJoin_eq_resolve cwd root P hroot hrel hne]

/-- The amended C3 at the root `/srv/app/storage` and the input `docs/`. -/
theorem getFullPath_eq_resolve_of_relative_witness :
    getFullPath "/srv/app/storage".toList (.string "docs/".toList) =
      .ok (posixResolve "/".toList ["/srv/app/storage".toList, "docs/".toList] ++
        if "docs/".toList.getLast? = some '/' then ['/'] else []) :=
  getFullPath_eq_resolve_of_relative "/".toList "/srv/app/storage".toList "docs/".toList
    (by decide) (by decide) (by decide)

/-- C4. For a storage root and a relative path `P` (one that does not begin with a
separator) whose normalized join with the root has the root as a textual prefix,
`pathValidator` accepts `P`, and the path the controller derives is the
normalization of the joined text. -/
theorem pathValidator_accepts_of_join_prefixed (cwd root P : JSString)
    (hroot : IsStorageRoot root) (hrel : P.head? ≠ some '/')
    (hpre : startsWith (posixNormalize (joinText root P)) root = true) :
    pathValidator cwd root (queryRequest (.string P)) = [none] ∧
      getFullPath root (.string P) = .ok (posixNormalize (joinText root P)) := by
  by_cases hP : P = []
  · subst hP
    refine ⟨rfl, ?_⟩
    show Except.ok (posixJoin [root, []]) = _
    rw [posixJoin_empty root hroot.ne_nil]
    rfl
  · have hjt : joinText root P = root ++ '/' :: P := by
      have h1 : P.isEmpty = false := by simpa using hP
      have h2 : root.isEmpty = false := by simpa using hroot.ne_nil
      simp [joinText, h1, h2]
    rw [hjt] at hpre ⊢
    constructor
    · rw [pathValidator_queryRequest cwd root P hP,
        posixResolve_relative cwd root P hroot.1 hP hrel]
      have habs : (root ++ '/' :: P).head? = some '/' := by
        rw [List.head?_append_of_ne_nil _ hroot.ne_nil]; exact hroot.1
      rw [posixNormalize_absolute _ habs, startsWith_iff] at hpre
      have hs : root <+: '/' :: normalizeString (root ++ '/' :: P) false := by
        by_cases hn : normalizeString (root ++ '/' :: P) false = []
        · rw [if_pos hn, hroot.eq_cons.2] at hpre
          have hlen := hpre.length_le
          have hpos := List.length_pos.mpr hroot.eq_cons.1
          simp only [List.length_cons, List.length_nil] at hlen
          omega
        · rw [if_neg hn] at hpre
          split_ifs at hpre with ht
          · rw [← List.cons_append] at hpre
            exact prefix_of_prefix_snoc hroot.2.1 hpre
          · simpa using hpre
      rw [(startsWith_iff _ _).mpr hs]
      rfl
    · show Except.ok (posixJoin [root, P]) = _
      rw [posixJoin_pair root P hroot.ne_nil hP]

/-- C4 at the root `/srv/app/storage` and the input `docs/../notes/a.txt`. -/
theorem pathValidator_accepts_of_join_prefixed_witness :
    pathValidator "/".toList "/srv/app/storage".toList
        (queryRequest (.string "docs/../notes/a.txt".toList)) = [none] ∧
      getFullPath "/srv/app/storage".toList (.string "docs/../notes/a.txt".toList) =
        .ok (posixNormalize (joinText "/srv/app/storage".toList "docs/../notes/a.txt".toList)) :=
  pathValidator_accepts_of_join_prefixed "/".toList "/srv/app/storage".toList
    "docs/../notes/a.txt".toList (by decide) (by decide) (by decide)

/-- C6 (fails on the code). A path that begins with a separator is read by
`path.resolve` as absolute and is not joined to the storage root: for `/x` the
validator checks `/x` itself and answers 403, although the controller's
`getFullPath` joins it to `/srv/app/storage/x`, which the root prefixes. -/
theorem pathValidator_reads_leading_separator_as_absolute :
    posixResolve "/".toList ["/srv/app/storage".toList, "/x".toList] = "/x".toList ∧
    pathValidator "/".toList "/srv/app/storage".toList
      (queryRequest (.string "/x".toList)) = [some forbiddenError] ∧
    forbiddenError.statusCode = some 403 ∧
    getFullPath "/srv/app/storage".toList (.string "/x".toList) =
      .ok "/srv/app/storage/x".toList ∧
    startsWith "/srv/app/storage/x".toList "/srv/app/storage".toList = true :=
  ⟨by decide, by decide, rfl, rfl, by decide⟩

/-! ## The fields of a request (C5, C8) -/

/-- C5, as stated, fails. A path field that holds `null`, `0` or `false` is not a
string, yet `pathValidator` passes the request on without an error. -/
theorem pathValidator_passes_falsy_nonstring :
    JSValue.null.isString = false ∧
    pathValidator "/".toList "/srv/app/storage".toList (bodyRequest .null) = [none] ∧
    pathValidator "/".toList "/srv/app/storage".toList
      { body := some { oldPath := .number 0, newPath := .bool false } } = [none] := by
  decide

/-- C5, amended. When a path-bearing field holds a truthy value that is not a
string, `pathValidator` rejects the request with the 400 or the 403 error, and
with the 400 error `Invalid path provided.` when every truthy field read before
it is a string that resolves to a path prefixed by the storage root. -/
theorem pathValidator_rejects_truthy_nonstring (cwd root : JSString) (req : Request)
    (pre post : List JSValue) (v : JSValue)
    (hfields : suppliedFields req = pre ++ v :: post)
    (htruthy : v.truthy = true) (hstr : v.isString = false) :
    (pathValidator cwd root req = [some invalidPathError] ∨
        pathValidator cwd root req = [some forbiddenError]) ∧
      ((∀ u ∈ pre, u.truthy = true →
          ∃ s, u = .string s ∧ startsWith (posixResolve cwd [root, s]) root = true) →
        pathValidator cwd root req = [some invalidPathError]) := by
  have hv := fieldError_of_not_string cwd root v hstr
  have hff : firstFailure cwd root req =
      ((pre.filter JSValue.truthy).findSome? (fieldError cwd root)).or
        (some invalidPathError) := by
    simp [firstFailure, hfields, List.filter_cons, htruthy, List.findSome?_append,
      List.findSome?_cons, hv]
  rw [pathValidator_eq_firstFailure, hff]
  constructor
  · cases h : (pre.filter JSValue.truthy).findSome? (fieldError cwd root) with
    | none => left; rfl
    | some e =>
      obtain ⟨u, _, hu⟩ := List.exists_of_findSome?_eq_some h
      rcases fieldError_cases cwd root u e hu with rfl | rfl
      · left; rfl
      · right; rfl
  · intro hpre
    have hnone : (pre.filter JSValue.truthy).findSome? (fieldError cwd root) = none := by
      rw [List.findSome?_eq_none_iff]
      intro u hu
      rw [List.mem_filter] at hu
      exact (fieldError_eq_none_iff cwd root u).mpr (hpre u hu.1 hu.2)
    rw [hnone]
    rfl

/-- The amended C5 on a rename request whose `oldPath` is fine and whose `newPath`
is the number 7: the request is rejected with the 400 error. -/
theorem pathValidator_rejects_truthy_nonstring_witness :
    pathValidator "/".toList "/srv/app/storage".toList
        { body := some { oldPath := .string "a.txt".toList, newPath := .number 7 } } =
      [some invalidPathError] :=
  (pathValidator_rejects_truthy_nonstring "/".toList "/srv/app/storage".toList
    { body := some { oldPath := .string "a.txt".toList, newPath := .number 7 } }
    [.undefined, .undefined, .string "a.txt".toList] [.undefined] (.number 7) rfl rfl rfl).2
    (by
      intro u hu ht
      simp only [List.mem_cons, List.mem_singleton, List.not_mem_nil, or_false] at hu
      rcases hu with rfl | rfl | rfl
      · exact absurd ht (by decide)
      · exact absurd ht (by decide)
      · exact ⟨"a.txt".toList, rfl, by decide⟩)

/-- When `pathValidator` passes a request on without an error. -/
theorem pathValidator_eq_none_iff (cwd root : JSString) (req : Request) :
    pathValidator cwd root req = [none] ↔
      ∀ v ∈ suppliedFields req, v.truthy = true →
        ∃ s, v = .string s ∧ startsWith (posixResolve cwd [root, s]) root = true := by
  rw [pathValidator_eq_firstFailure]
  simp only [List.cons.injEq, and_true, firstFailure, List.findSome?_eq_none_iff,
    List.mem_filter, and_imp]
  constructor
  · intro h v hv ht
    exact (fieldError_eq_none_iff cwd root v).mp (h v hv ht)
  · intro h v hv ht
    exact (fieldError_eq_none_iff cwd root v).mpr (h v hv ht)

/-- C8, as stated, fails. A request whose `body.path` is the number `0`, or whose
`body.destination` is `false`, supplies a field that is not a string, and
`pathValidator` calls `next()` with no error. -/
theorem pathValidator_passes_zero_path :
    (JSValue.number 0).isString = false ∧
    pathValidator "/".toList "/srv/app/storage".toList (bodyRequest (.number 0)) = [none] ∧
    pathValidator "/".toList "/srv/app/storage".toList
      { query := { path := .string "a".toList }
        body := some { path := .string "b".toList, destination := .bool false } } = [none] := by
  decide

/-- C8, amended. `pathValidator` calls `next` exactly once. It does so with no error
if and only if every field with a truthy value is a string whose resolved path
the storage root prefixes; otherwise with the error of the first failing field in
the order `query.path`, `body.path`, `body.oldPath`, `body.newPath`,
`body.destination`, the type check coming before the containment check. Fields
that are absent or hold a falsy value are skipped. -/
theorem pathValidator_calls_next_once (cwd root : JSString) (req : Request) :
    pathValidator cwd root req = [firstFailure cwd root req] ∧
      (pathValidator cwd root req = [none] ↔
        ∀ v ∈ suppliedFields req, v.truthy = true →
          ∃ s, v = .string s ∧ startsWith (posixResolve cwd [root, s]) root = true) ∧
      (∀ v ∈ suppliedFields req, v.truthy = false → v ∉ collectUserPaths req) := by
  refine ⟨pathValidator_eq_firstFailure cwd root req, ?_, ?_⟩
  · exact pathValidator_eq_none_iff cwd root req
  · intro v _ hf hmem
    rw [collectUserPaths_eq_filter, List.mem_filter] at hmem
    rw [hf] at hmem
    exact Bool.false_ne_true hmem.2

/-! ## The root itself (C9) -/

/-- C9. For a storage root, a request each of whose path fields is absent, the
empty string or `.` is accepted by `pathValidator`, and for each of these three
values the controller's `getFullPath` is the storage root itself. -/
theorem getFullPath_root (cwd root : JSString) (hroot : IsStorageRoot root) :
    (∀ req : Request,
        (∀ v ∈ suppliedFields req,
          v = .undefined ∨ v = .string [] ∨ v = .string ['.']) →
        pathValidator cwd root req = [none]) ∧
      getFullPath root (.string []) = .ok root ∧
      getFullPath root (.string ['.']) = .ok root ∧
      getFullPath root .undefined = .ok root := by
  have hdot : posixResolve cwd [root, ['.']] = root := by
    rw [posixResolve_relative cwd root ['.'] hroot.1 (by simp) (by simp),
      normalizeString_append_slash_dot]
    exact hroot.eq_cons.2.symm
  have hempty : posixJoin [root, []] = root := by
    rw [posixJoin_empty root hroot.ne_nil]
    exact hroot.2.2
  refine ⟨?_, ?_, ?_, ?_⟩
  · intro req hreq
    rw [(pathValidator_eq_none_iff cwd root req)]
    intro v hv ht
    rcases hreq v hv with rfl | rfl | rfl
    · exact absurd ht (by decide)
    · exact absurd ht (by decide)
    · exact ⟨['.'], rfl, by rw [hdot]; exact startsWith_self root⟩
  · show Except.ok (posixJoin [root, []]) = _
    rw [hempty]
  · show Except.ok (posixJoin [root, ['.']]) = _
    rw [posixJoin_pair root ['.'] hroot.ne_nil (by simp)]
    have habs : (root ++ ['/', '.']).head? = some '/' := by
      rw [List.head?_append_of_ne_nil _ hroot.ne_nil]; exact hroot.1
    rw [posixNormalize_absolute _ habs, normalizeString_append_slash_dot,
      if_neg hroot.eq_cons.1]
    have hl : (root ++ ['/', '.']).getLast? ≠ some '/' := by
      rw [show root ++ ['/', '.'] = (root ++ ['/']) ++ ['.'] by simp, List.getLast?_concat]
      decide
    rw [if_neg hl, List.append_nil, ← hroot.eq_cons.2]
  · show Except.ok (posixJoin [root, []]) = _
    rw [hempty]

/-- C9 at the root `/srv/app/storage`, for a request with `.` in `query.path`, the
empty string in `body.path` and the other fields absent. -/
theorem getFullPath_root_witness :
    pathValidator "/".toList "/srv/app/storage".toList
        { query := { path := .string ['.'] }, body := some { path := .string [] } } = [none] ∧
      getFullPath "/srv/app/storage".toList (.string []) = .ok "/srv/app/storage".toList ∧
      getFullPath "/srv/app/storage".toList (.string ['.']) = .ok "/srv/app/storage".toList ∧
      getFullPath "/srv/app/storage".toList .undefined = .ok "/srv/app/storage".toList :=
  have h := getFullPath_root "/".toList "/srv/app/storage".toList (by decide)
  ⟨h.1 { query := { path := .string ['.'] }, body := some { path := .string [] } }
      (by
        intro v hv
        simp only [suppliedFields, List.mem_cons, List.mem_singleton, List.not_mem_nil,
          or_false] at hv
        rcases hv with rfl | rfl | rfl | rfl | rfl <;> simp),
    h.2⟩

/-! ## The upload route (C7) -/

/-- C7 (fails on the code). On the upload route `pathValidator` runs before the
multipart parser has filled `req.body`, so the multipart `path` field is never
checked: a request with the field `path = ../../outside` passes the validator,
whether the body parsers left `req.body` empty or undefined, and `uploadFiles`
ensures the directory `/srv/outside` and moves the file there. The same value in
a body that is already parsed when the validator runs draws the 403 error. -/
theorem uploadRoute_uses_unchecked_path :
    pathValidator "/".toList "/srv/app/storage".toList { body := some {} } = [none] ∧
    (uploadRoute "/".toList "/srv/app/storage".toList
      { req := { body := some {} }
        fields := { path := .string "../../outside".toList }
        files := [{ path := "storage1/5f2a".toList, originalname := "a.txt".toList }] }).take 2 =
      [.ensureDir "/srv/outside".toList,
       .move "storage1/5f2a".toList "/srv/outside/a.txt".toList] ∧
    (uploadRoute "/".toList "/srv/app/storage".toList
      { req := { body := none }
        fields := { path := .string "../../outside".toList }
        files := [{ path := "storage1/5f2a".toList, originalname := "a.txt".toList }] }).take 2 =
      [.ensureDir "/srv/outside".toList,
       .move "storage1/5f2a".toList "/srv/outside/a.txt".toList] ∧
    isWithin "/srv/app/storage".toList "/srv/outside".toList = false ∧
    pathValidator "/".toList "/srv/app/storage".toList
      (bodyRequest (.string "../../outside".toList)) = [some forbiddenError] := by
  decide

/-! ## Download (C10) -/

/-- C10. When the path derived from `req.query.path` stats as a directory,
`downloadFile` passes one error with status 400 to `next` and does not call
`res.download`; when it stats as something else, `downloadFile` calls
`res.download` on that path, and the only error it can pass to `next` is the one
the transfer itself reports, so no 400 error unless the transfer reports one. -/
theorem downloadFile_directory_or_file (root : JSString)
    (stat : JSString → Except JSError Stats) (transfer : JSString → Option JSError)
    (req : Request) (filePath : JSString) (stats : Stats)
    (hpath : getFullPath root req.query.path = .ok filePath)
    (hstat : stat filePath = .ok stats) :
    (stats.isDirectory = true →
        downloadFile root stat transfer req = [.next (some directoryDownloadError)] ∧
        directoryDownloadError.statusCode = some 400 ∧
        ∀ p, Effect.download p ∉ downloadFile root stat transfer req) ∧
      (stats.isDirectory = false →
        (downloadFile root stat transfer req).head? = some (.download filePath) ∧
        (∀ e, Effect.next (some e) ∈ downloadFile root stat transfer req →
          transfer filePath = some e) ∧
        ((∀ e, transfer filePath = some e → e.statusCode ≠ some 400) →
          ∀ e, Effect.next (some e) ∈ downloadFile root stat transfer req →
            e.statusCode ≠ some 400)) := by
  have hnf : ∀ e, Effect.next (some e) ∈ downloadFile root stat transfer req →
      stats.isDirectory = false → transfer filePath = some e := by
    intro e he hd
    simp only [downloadFile, hpath, hstat, hd] at he
    cases ht : transfer filePath with
    | none => simp [ht] at he
    | some err =>
      simp [ht] at he
      rw [he]
  constructor
  · intro hd
    simp [downloadFile, hpath, hstat, hd, directoryDownloadError]
  · intro hd
    refine ⟨?_, fun e he => hnf e he hd, fun h e he => h e (hnf e he hd)⟩
    simp only [downloadFile, hpath, hstat, hd]
    cases transfer filePath <;> rfl

/-- C10 on a filesystem in which `/srv/app/storage/docs` is a directory and every
other path is a file. -/
theorem downloadFile_directory_or_file_witness :
    (downloadFile "/srv/app/storage".toList
        (fun p => .ok { isDirectory := p == "/srv/app/storage/docs".toList })
        (fun _ => none) (queryRequest (.string "docs".toList)) =
      [.next (some directoryDownloadError)]) ∧
    (downloadFile "/srv/app/storage".toList
        (fun p => .ok { isDirectory := p == "/srv/app/storage/docs".toList })
        (fun _ => none) (queryRequest (.string "docs/a.txt".toList))).head? =
      some (.download "/srv/app/storage/docs/a.txt".toList) :=
  ⟨((downloadFile_directory_or_file "/srv/app/storage".toList
      (fun p => .ok { isDirectory := p == "/srv/app/storage/docs".toList })
      (fun _ => none) (queryRequest (.string "docs".toList))
      "/srv/app/storage/docs".toList { isDirectory := true } rfl rfl).1 rfl).1,
   ((downloadFile_directory_or_file "/srv/app/storage".toList
      (fun p => .ok { isDirectory := p == "/srv/app/storage/docs".toList })
      (fun _ => none) (queryRequest (.string "docs/a.txt".toList))
      "/srv/app/storage/docs/a.txt".toList { isDirectory := false } rfl rfl).2 rfl).1⟩


/-! ## Lemmas: the stack of segments, going above the root allowed or not -/

theorem StackOK.segOK {a : Bool} : ∀ {stack : List JSString}, StackOK a stack →
    ∀ s ∈ stack, SegOK s := by
  intro stack
  induction stack with
  | nil => intro _ s hs; simp at hs
  | cons top rest ih =>
    intro h s hs
    rcases List.mem_cons.mp hs with rfl | hs
    · exact h.1
    · exact ih h.2.2 s hs

theorem StackOK.tail {a : Bool} {top : JSString} {rest : List JSString}
    (h : StackOK a (top :: rest)) : StackOK a rest := h.2.2

theorem stackOK_of_all_dotdot (rest : List JSString) (h : ∀ s ∈ rest, s = ['.', '.']) :
    StackOK true rest := by
  induction rest with
  | nil => trivial
  | cons t r ih =>
    have ht : t = ['.', '.'] := h t (List.mem_cons_self _ _)
    have hr : ∀ s ∈ r, s = ['.', '.'] := fun s hs => h s (List.mem_cons_of_mem _ hs)
    refine ⟨?_, fun _ => ⟨rfl, hr⟩, ih hr⟩
    rw [ht]
    exact ⟨by simp, by simp, by simp⟩

theorem joinRev_ne_nil_of_segOK (stack : List JSString) (hok : ∀ s ∈ stack, SegOK s)
    (hne : stack ≠ []) : joinRev stack ≠ [] := by
  cases stack with
  | nil => exact absurd rfl hne
  | cons s rest =>
    cases rest with
    | nil => exact (hok s (List.mem_cons_self _ _)).1
    | cons t rest => simp [joinRev]

theorem joinRev_length_pos_of_segOK (stack : List JSString) (hok : ∀ s ∈ stack, SegOK s)
    (hne : stack ≠ []) : 0 < (joinRev stack).length :=
  List.length_pos.mpr (joinRev_ne_nil_of_segOK stack hok hne)

/-- The test by which `normalizeString` recognizes `..` at the end of `res` holds
when the top of the stack is `..`. -/
theorem dotdot_at_end (pre : JSString) :
    ¬ ((pre ++ ['.', '.']).length < 2 ∨ ((['.', '.'] : JSString).length : Int) ≠ 2 ∨
      charAt (pre ++ ['.', '.']) ((pre ++ ['.', '.']).length - 1) ≠ CHAR_DOT ∨
      charAt (pre ++ ['.', '.']) ((pre ++ ['.', '.']).length - 2) ≠ CHAR_DOT) := by
  have h1 : charAt (pre ++ ['.', '.']) ((pre ++ ['.', '.']).length - 1) = '.' := by
    unfold charAt
    rw [List.getD_append_right _ _ _ _ (by simp)]
    simp
  have h2 : charAt (pre ++ ['.', '.']) ((pre ++ ['.', '.']).length - 2) = '.' := by
    unfold charAt
    rw [List.getD_append_right _ _ _ _ (by simp)]
    simp
  rw [h1, h2]
  simp [CHAR_DOT]

/-- The `dots === 2` branch on the path of a stack. -/
theorem dotdotAction_joinRev_gen (a : Bool) (stack : List JSString)
    (hok : ∀ s ∈ stack, SegOK s) :
    dotdotAction a (joinRev stack) (headLen stack) =
      (joinRev (stackStep a stack ['.', '.']), headLen (stackStep a stack ['.', '.'])) := by
  cases stack with
  | nil => cases a <;> simp [dotdotAction, joinRev, headLen, stackStep]
  | cons s rest =>
    have hs : SegOK s := hok s (List.mem_cons_self _ _)
    have hrest : ∀ t ∈ rest, SegOK t := fun t ht => hok t (List.mem_cons_of_mem _ ht)
    have hpos : 0 < s.length := List.length_pos.mpr hs.1
    by_cases htop : s = ['.', '.']
    · -- the top is `..`: nothing is removed
      subst htop
      have hcond := dotdot_at_end (if rest = [] then [] else joinRev rest ++ ['/'])
      rw [← joinRev_cons] at hcond
      have hlen := joinRev_length_pos_of_segOK (['.', '.'] :: rest) hok (by simp)
      have hstep : stackStep a (['.', '.'] :: rest) ['.', '.'] =
          if a then ['.', '.'] :: ['.', '.'] :: rest else ['.', '.'] :: rest := by
        simp [stackStep]
      rw [hstep]
      simp only [dotdotAction, headLen, hcond, if_false]
      cases a
      · simp [headLen]
      · simp only [if_true, hlen, gt_iff_lt, joinRev_cons_cons, headLen]
        rfl
    · -- the top is removed
      have hclean : CleanSeg s := ⟨hs.1, hs.2.1, hs.2.2, htop⟩
      have hstep : stackStep a (s :: rest) ['.', '.'] = rest := by
        simp [stackStep, htop]
      rw [hstep]
      have hcond := not_dotdot_at_end (if rest = [] then [] else joinRev rest ++ ['/']) s hclean
      rw [← joinRev_cons] at hcond
      simp only [dotdotAction, headLen, hcond, if_true]
      cases rest with
      | nil =>
        have hli : lastIndexOf (joinRev [s]) '/' = -1 := lastIndexOf_of_not_mem hs.2.1
        have hlen : (joinRev [s]).length ≠ 0 := by
          show s.length ≠ 0
          omega
        simp only [hli, if_true, hlen, ne_eq, not_false_eq_true]
        split_ifs <;> rfl
      | cons t rest' =>
        have ht : SegOK t := hrest t (List.mem_cons_self _ _)
        have hA := joinRev_length_pos_of_segOK (t :: rest') hrest (by simp)
        have hlen : (joinRev (s :: t :: rest')).length > 2 := by
          rw [joinRev_cons_cons]
          simp only [List.length_append, List.length_cons]
          omega
        have hli : lastIndexOf (joinRev (s :: t :: rest')) '/' =
            ((joinRev (t :: rest')).length : Int) := by
          rw [joinRev_cons_cons]
          exact lastIndexOf_append_cons _ _ _ hs.2.1
        have hne : ¬ ((joinRev (t :: rest')).length : Int) = -1 := by omega
        have hsl : slice (joinRev (s :: t :: rest')) 0 (joinRev (t :: rest')).length =
            joinRev (t :: rest') := by
          rw [joinRev_cons_cons]
          simp [slice]
        simp only [hlen, if_true, hli, hne, if_false, Int.toNat_ofNat, hsl]
        congr 1
        cases rest' with
        | nil =>
          rw [show joinRev [t] = t from rfl, lastIndexOf_of_not_mem ht.2.1]
          simp [headLen]
        | cons u rest'' =>
          rw [joinRev_cons_cons, lastIndexOf_append_cons _ _ _ ht.2.1]
          simp only [headLen, List.length_append, List.length_cons]
          push_cast
          omega

/-- On the path of a stack, `segAction` is `stackStep`. -/
theorem segAction_joinRev_gen (a : Bool) (stack : List JSString) (seg : JSString)
    (hok : ∀ s ∈ stack, SegOK s) :
    segAction a (joinRev stack, headLen stack) seg =
      (joinRev (stackStep a stack seg), headLen (stackStep a stack seg)) := by
  by_cases e1 : seg = [] ∨ seg = ['.']
  · simp only [segAction, stackStep, if_pos e1]
  · by_cases e2 : seg = ['.', '.']
    · subst e2
      rw [← dotdotAction_joinRev_gen a stack hok]
      simp [segAction]
    · simp only [segAction, stackStep, if_neg e1, if_neg e2]
      cases stack with
      | nil => simp [joinRev, headLen]
      | cons t rest =>
        have hA := joinRev_length_pos_of_segOK (t :: rest) hok (by simp)
        simp only [hA, if_true, gt_iff_lt, joinRev_cons_cons, headLen]

theorem stackStep_ok (a : Bool) (stack : List JSString) (seg : JSString)
    (hok : StackOK a stack) (hno : '/' ∉ seg) : StackOK a (stackStep a stack seg) := by
  by_cases e1 : seg = [] ∨ seg = ['.']
  · simp only [stackStep, if_pos e1]; exact hok
  · by_cases e2 : seg = ['.', '.']
    · subst e2
      cases stack with
      | nil =>
        cases a
        · simp [stackStep, StackOK]
        · simp [stackStep, StackOK, SegOK]
      | cons top rest =>
        by_cases htop : top = ['.', '.']
        · cases a
          · simpa [stackStep, htop] using hok
          · have hall := (hok.2.1 htop).2
            have : stackStep true (top :: rest) ['.', '.'] = ['.', '.'] :: top :: rest := by
              simp [stackStep, htop]
            rw [this]
            refine ⟨⟨by simp, by simp, by simp⟩, fun _ => ⟨rfl, ?_⟩, hok⟩
            intro s hs
            rcases List.mem_cons.mp hs with rfl | hs
            · exact htop
            · exact hall s hs
        · have : stackStep a (top :: rest) ['.', '.'] = rest := by
            simp [stackStep, htop]
          rw [this]
          exact hok.2.2
    · simp only [stackStep, if_neg e1, if_neg e2]
      push_neg at e1
      exact ⟨⟨e1.1, hno, e1.2⟩, fun h => absurd h e2, hok⟩

/-- Folding `segAction` from the path of a stack is folding `stackStep`. -/
theorem foldl_segAction_joinRev_gen (a : Bool) (segs : List JSString) :
    ∀ stack : List JSString, StackOK a stack → (∀ s ∈ segs, '/' ∉ s) →
      segs.foldl (segAction a) (joinRev stack, headLen stack) =
        (joinRev (segs.foldl (stackStep a) stack),
          headLen (segs.foldl (stackStep a) stack)) ∧
      StackOK a (segs.foldl (stackStep a) stack) := by
  induction segs with
  | nil => intro stack hok _; exact ⟨rfl, hok⟩
  | cons seg segs ih =>
    intro stack hok hno
    simp only [List.foldl_cons]
    rw [segAction_joinRev_gen a stack seg hok.segOK]
    exact ih _ (stackStep_ok a stack seg hok (hno seg (List.mem_cons_self _ _)))
      (fun s hs => hno s (List.mem_cons_of_mem _ hs))

/-- The function `normalizeString` yields the path of the stack that `stackStep`
builds from the segments. -/
theorem normalizeString_eq_stack (x : JSString) (a : Bool) :
    normalizeString x a = joinRev ((splitSlash x).foldl (stackStep a) []) ∧
      StackOK a ((splitSlash x).foldl (stackStep a) []) := by
  have h := foldl_segAction_joinRev_gen a (splitSlash x) [] trivial (splitSlash_no_slash x)
  refine ⟨?_, h.2⟩
  rw [normalizeString_eq_fold]
  have h1 := h.1
  simp only [joinRev, headLen] at h1
  rw [h1]


theorem splitSlash_joinRev_of_segOK (stack : List JSString) (hok : ∀ s ∈ stack, SegOK s)
    (hne : stack ≠ []) : splitSlash (joinRev stack) = stack.reverse := by
  induction stack with
  | nil => exact absurd rfl hne
  | cons s rest ih =>
    have hs : SegOK s := hok s (List.mem_cons_self _ _)
    cases rest with
    | nil => simpa [joinRev] using splitSlash_of_no_slash s hs.2.1
    | cons t rest' =>
      rw [joinRev_cons_cons, splitSlash_append_slash,
        ih (fun u hu => hok u (List.mem_cons_of_mem _ hu)) (by simp),
        splitSlash_of_no_slash s hs.2.1]
      simp

/-- Reading the segments of a stack again, from the bottom, builds the same stack. -/
theorem foldl_stackStep_reverse (a : Bool) (stack : List JSString) (hok : StackOK a stack) :
    stack.reverse.foldl (stackStep a) [] = stack := by
  induction stack with
  | nil => rfl
  | cons top rest ih =>
    rw [List.reverse_cons, List.foldl_append, ih hok.2.2]
    simp only [List.foldl_cons, List.foldl_nil]
    have htop : SegOK top := hok.1
    have e1 : ¬ (top = [] ∨ top = ['.']) := by
      push_neg; exact ⟨htop.1, htop.2.2⟩
    by_cases e2 : top = ['.', '.']
    · obtain ⟨ha, hall⟩ := hok.2.1 e2
      subst e2
      subst ha
      cases rest with
      | nil => simp [stackStep]
      | cons t r =>
        have ht : t = ['.', '.'] := hall t (List.mem_cons_self _ _)
        simp [stackStep, ht]
    · simp only [stackStep, if_neg e1, if_neg e2]

theorem joinRev_head?_of_segOK (stack : List JSString) (hok : ∀ s ∈ stack, SegOK s) :
    (joinRev stack).head? ≠ some '/' := by
  induction stack with
  | nil => simp [joinRev]
  | cons s rest ih =>
    have hs : SegOK s := hok s (List.mem_cons_self _ _)
    have hrest : ∀ t ∈ rest, SegOK t := fun t ht => hok t (List.mem_cons_of_mem _ ht)
    cases rest with
    | nil =>
      show s.head? ≠ some '/'
      intro h
      obtain ⟨c, t, rfl⟩ := List.exists_cons_of_ne_nil hs.1
      simp at h
      exact hs.2.1 (by simp [h])
    | cons t rest' =>
      rw [joinRev_cons_cons,
        List.head?_append_of_ne_nil _ (joinRev_ne_nil_of_segOK (t :: rest') hrest (by simp))]
      exact ih hrest

theorem joinRev_getLast?_of_segOK (s : JSString) (rest : List JSString) (hs : SegOK s) :
    (joinRev (s :: rest)).getLast? ≠ some '/' := by
  rw [joinRev_cons]
  obtain ⟨u, c, hu⟩ : ∃ u c, s = u ++ [c] := by
    rcases List.eq_nil_or_concat s with h | ⟨u, c, h⟩
    · exact absurd h hs.1
    · exact ⟨u, c, by rw [h, List.concat_eq_append]⟩
  rw [hu, ← List.append_assoc, List.getLast?_concat]
  intro h
  have hc : c = '/' := Option.some.inj h
  apply hs.2.1
  rw [hu, hc]
  simp

theorem stackStep_of_clean (a : Bool) (stack : List JSString) (s : JSString)
    (hs : CleanSeg s) : stackStep a stack s = s :: stack := by
  unfold stackStep
  rw [if_neg (by push_neg; exact ⟨hs.1, hs.2.2.1⟩), if_neg hs.2.2.2]

theorem CleanSeg.getLast? {s : JSString} (hs : CleanSeg s) : s.getLast? ≠ some '/' := by
  intro h
  obtain ⟨u, hu⟩ := List.getLast?_eq_some_iff.mp h
  apply hs.2.1
  rw [hu]
  simp


theorem IsNormalPath.path_ne_nil {a : Bool} {K : List JSString} {X : JSString}
    (h : IsNormalPath a K X) : X ≠ [] := by
  obtain ⟨hok, hne, rfl⟩ := h
  have := joinRev_ne_nil_of_segOK K hok.segOK hne
  cases a <;> simp [this]

theorem IsNormalPath.head? {a : Bool} {K : List JSString} {X : JSString}
    (h : IsNormalPath a K X) : (X.head? == some '/') = !a := by
  obtain ⟨hok, hne, rfl⟩ := h
  cases a
  · rfl
  · have := joinRev_head?_of_segOK K hok.segOK
    simpa using this

theorem IsNormalPath.end_ne_slash {a : Bool} {K : List JSString} {X : JSString}
    (h : IsNormalPath a K X) : X.getLast? ≠ some '/' := by
  obtain ⟨hok, hne, rfl⟩ := h
  obtain ⟨s, rest, rfl⟩ := List.exists_cons_of_ne_nil hne
  have hj := joinRev_ne_nil_of_segOK (s :: rest) hok.segOK hne
  rw [List.getLast?_append_of_ne_nil _ hj]
  exact joinRev_getLast?_of_segOK s rest hok.1

/-- Reading a path in normal form builds its stack. -/
theorem IsNormalPath.fold {a : Bool} {K : List JSString} {X : JSString}
    (h : IsNormalPath a K X) : (splitSlash X).foldl (stackStep a) [] = K := by
  obtain ⟨hok, hne, rfl⟩ := h
  have hsplit := splitSlash_joinRev_of_segOK K hok.segOK hne
  cases a
  · have : splitSlash (['/'] ++ joinRev K) = [] :: splitSlash (joinRev K) := by
      simp [splitSlash]
    simp only [Bool.false_eq_true, if_false]
    rw [this, hsplit, List.foldl_cons]
    have h0 : stackStep false [] [] = [] := rfl
    rw [h0]
    exact foldl_stackStep_reverse false K hok
  · simp only [if_true, List.nil_append]
    rw [hsplit]
    exact foldl_stackStep_reverse true K hok

/-- What `path.normalize` returns for a path without a trailing separator whose
segments leave a non-empty stack is in normal form. -/
theorem posixNormalize_isNormalPath (p : JSString) (hp : p ≠ [])
    (hlast : p.getLast? ≠ some '/') (hne : (splitSlash p).foldl
      (stackStep (!(p.head? == some '/'))) [] ≠ []) :
    IsNormalPath (!(p.head? == some '/'))
      ((splitSlash p).foldl (stackStep (!(p.head? == some '/'))) []) (posixNormalize p) := by
  obtain ⟨hn, hok⟩ := normalizeString_eq_stack p (!(p.head? == some '/'))
  refine ⟨hok, hne, ?_⟩
  have hl : p.length ≠ 0 := by simpa using hp
  have hj := joinRev_ne_nil_of_segOK _ hok.segOK hne
  have hjl : (joinRev ((splitSlash p).foldl (stackStep (!(p.head? == some '/'))) [])).length
      ≠ 0 := by simpa using hj
  have ht : (p.getLast? == some '/') = false := by simpa using hlast
  simp only [posixNormalize, hl, if_false, CHAR_FORWARD_SLASH, hn, hjl, ht,
    Bool.false_eq_true]
  cases h : (p.head? == some '/') <;> simp

/-- Joining a clean segment to a path in normal form appends it after a separator. -/
theorem posixJoin_normal_clean {a : Bool} {K : List JSString} {X : JSString}
    (h : IsNormalPath a K X) (f : JSString) (hf : CleanSeg f) :
    posixJoin [X, f] = X ++ '/' :: f ∧ IsNormalPath a (f :: K) (X ++ '/' :: f) := by
  have hX := h.path_ne_nil
  have hnp : IsNormalPath a (f :: K) (X ++ '/' :: f) := by
    obtain ⟨hok, hne, hx⟩ := h
    refine ⟨⟨⟨hf.1, hf.2.1, hf.2.2.1⟩, fun e => absurd e hf.2.2.2, hok⟩, by simp, ?_⟩
    obtain ⟨s, rest, rfl⟩ := List.exists_cons_of_ne_nil hne
    rw [joinRev_cons_cons, hx]
    simp
  refine ⟨?_, hnp⟩
  rw [posixJoin_pair X f hX hf.1]
  have hhead : ((X ++ '/' :: f).head? == some '/') = !a := by
    rw [List.head?_append_of_ne_nil _ hX]
    exact h.head?
  have hlast : (X ++ '/' :: f).getLast? ≠ some '/' := by
    obtain ⟨c, t, hct⟩ := List.exists_cons_of_ne_nil hf.1
    rw [hct, show X ++ '/' :: c :: t = (X ++ ['/']) ++ c :: t by simp,
      List.getLast?_append_cons, ← hct]
    exact hf.getLast?
  have hfold : (splitSlash (X ++ '/' :: f)).foldl (stackStep a) [] = f :: K := by
    rw [splitSlash_append_slash, List.foldl_append, h.fold,
      splitSlash_of_no_slash f hf.2.1]
    simp only [List.foldl_cons, List.foldl_nil]
    exact stackStep_of_clean a K f hf
  have hn := posixNormalize_isNormalPath (X ++ '/' :: f) (by simp) hlast
    (by rw [hhead, Bool.not_not, hfold]; simp)
  rw [hhead, Bool.not_not, hfold] at hn
  rw [hn.2.2, hnp.2.2]

/-- Joining a clean segment to any path gives a path in normal form. -/
theorem posixJoin_isNormalPath (h D : JSString) (hD : CleanSeg D) :
    ∃ a K, IsNormalPath a K (posixJoin [h, D]) := by
  by_cases hh : h = []
  · subst hh
    have e : posixJoin [[], D] = posixNormalize D := by
      have hDl : 0 < D.length := List.length_pos.mpr hD.1
      simp [posixJoin, posixJoinLoop, hDl]
    rw [e]
    have hfold : ∀ a, (splitSlash D).foldl (stackStep a) [] = [D] := by
      intro a
      rw [splitSlash_of_no_slash D hD.2.1]
      simp only [List.foldl_cons, List.foldl_nil]
      exact stackStep_of_clean a [] D hD
    exact ⟨_, _, posixNormalize_isNormalPath D hD.1 hD.getLast?
      (by rw [hfold]; simp)⟩
  · rw [posixJoin_pair h D hh hD.1]
    have hlast : (h ++ '/' :: D).getLast? ≠ some '/' := by
      obtain ⟨c, t, hct⟩ := List.exists_cons_of_ne_nil hD.1
      rw [hct, show h ++ '/' :: c :: t = (h ++ ['/']) ++ c :: t by simp,
        List.getLast?_append_cons, ← hct]
      exact hD.getLast?
    have hfold : ∀ a, (splitSlash (h ++ '/' :: D)).foldl (stackStep a) [] =
        D :: (splitSlash h).foldl (stackStep a) [] := by
      intro a
      rw [splitSlash_append_slash, List.foldl_append, splitSlash_of_no_slash D hD.2.1]
      simp only [List.foldl_cons, List.foldl_nil]
      exact stackStep_of_clean a _ D hD
    exact ⟨_, _, posixNormalize_isNormalPath (h ++ '/' :: D) (by simp) hlast
      (by rw [hfold]; simp)⟩

/-- Joining two clean segments to any path, one after the other: the second join
appends the second segment after a separator. -/
theorem posixJoin_posixJoin_clean (h D f : JSString) (hD : CleanSeg D) (hf : CleanSeg f) :
    posixJoin [posixJoin [h, D], f] = posixJoin [h, D] ++ '/' :: f := by
  obtain ⟨a, K, hn⟩ := posixJoin_isNormalPath h D hD
  exact (posixJoin_normal_clean hn f hf).1


/-! ## Lemmas on the backup path -/

theorem isoDate_append (d t : JSString) (hd : 'T' ∉ d) : isoDate (d ++ 'T' :: t) = d := by
  unfold isoDate
  induction d with
  | nil => simp [List.takeWhile]
  | cons c rest ih =>
    have hc : c ≠ 'T' := fun e => hd (by simp [e])
    have hr : 'T' ∉ rest := fun e => hd (List.mem_cons_of_mem _ e)
    have hb : (c != 'T') = true := by simpa using hc
    simp [List.takeWhile, hb, ih hr]

theorem backupUsername_no_slash (u : JSString) (hu : '/' ∉ u) : '/' ∉ backupUsername u := by
  unfold backupUsername
  split_ifs
  · decide
  · exact hu

/-- The file name of a backup is a clean segment when neither the user name nor the
date holds a separator. -/
theorem backupFilename_clean (u iso : JSString) (hu : '/' ∉ u) (hd : '/' ∉ isoDate iso) :
    CleanSeg (backupFilename u iso) := by
  have hb := backupUsername_no_slash u hu
  have e : backupFilename u iso =
      'b' :: ("ackup-".toList ++ backupUsername u ++ '-' :: isoDate iso ++ ".zip".toList) := rfl
  refine ⟨by rw [e]; simp, ?_, by rw [e]; simp, by rw [e]; simp⟩
  unfold backupFilename
  simp only [List.mem_append, List.mem_cons, not_or]
  exact ⟨⟨⟨by decide, hb⟩, by decide, hd⟩, by decide⟩

theorem parentDir_append (X F : JSString) (hF : '/' ∉ F) : parentDir (X ++ '/' :: F) = X := by
  unfold parentDir
  rw [lastIndexOf_append_cons X F '/' hF]
  simp [slice]

theorem fileName_append (X F : JSString) (hF : '/' ∉ F) : fileName (X ++ '/' :: F) = F := by
  unfold fileName
  rw [lastIndexOf_append_cons X F '/' hF]
  have : ((X.length : Int) + 1).toNat = X.length + 1 := by omega
  rw [this, show X ++ '/' :: F = (X ++ ['/']) ++ F by simp]
  exact List.drop_left' (by simp)

/-- A storage root is a path in normal form. -/
theorem IsStorageRoot.isNormalPath {root : JSString} (h : IsStorageRoot root) :
    IsNormalPath false ((splitSlash root).foldl (stackStep false) []) root := by
  obtain ⟨hn, hok⟩ := normalizeString_eq_stack root false
  obtain ⟨hne, heq⟩ := h.eq_cons
  refine ⟨hok, ?_, ?_⟩
  · intro e
    rw [hn, e] at hne
    exact hne rfl
  · rw [← hn]
    simpa using heq

theorem desktop_clean : CleanSeg "Desktop".toList := by
  refine ⟨by decide, by decide, by decide, by decide⟩

/-- The promise of `createBackup` is fulfilled with the backup path only. -/
theorem backup_fulfilled_value (path : JSString) (events : List StreamEvent) :
    ∀ st : BackupState, (∀ v, st.promise = .fulfilled v → v = path) →
      ∀ v, (events.foldl (backupOnEvent path) st).promise = .fulfilled v → v = path := by
  induction events with
  | nil => intro st h; exact h
  | cons ev rest ih =>
    intro st h
    apply ih
    intro v hv
    cases ev with
    | outputClose =>
      simp only [backupOnEvent, PromiseState.settle] at hv
      cases hp : st.promise with
      | pending => rw [hp] at hv; exact (PromiseState.fulfilled.inj hv).symm
      | fulfilled w => rw [hp] at hv; exact h v (by rw [hp]; exact hv)
      | rejected r => rw [hp] at hv; cases hv
    | outputError err => exact h v hv
    | archiveError err =>
      simp only [backupOnEvent, PromiseState.settle] at hv
      cases hp : st.promise with
      | pending => rw [hp] at hv; cases hv
      | fulfilled w => rw [hp] at hv; exact h v (by rw [hp]; exact hv)
      | rejected r => rw [hp] at hv; cases hv

/-! ## The backup (C11, C12) -/

/-- C11, as stated, fails. With the user name `x/../y` the path is
`/home/alice/Desktop/y-2025-09-27.zip`, whose file name is not the backup name;
with the user name `a/b` the file `b-2025-09-27.zip` is placed in the directory
`backup-a` below the desktop directory. -/
theorem backupFilePath_username_with_separator :
    backupFilePath { homedir := "/home/alice".toList, username := "x/../y".toList,
                     isoNow := "2025-09-27T10:11:12.345Z".toList } =
      "/home/alice/Desktop/y-2025-09-27.zip".toList ∧
    fileName (backupFilePath { homedir := "/home/alice".toList, username := "a/b".toList,
                               isoNow := "2025-09-27T10:11:12.345Z".toList }) =
      "b-2025-09-27.zip".toList ∧
    parentDir (backupFilePath { homedir := "/home/alice".toList, username := "a/b".toList,
                                isoNow := "2025-09-27T10:11:12.345Z".toList }) =
      "/home/alice/Desktop/backup-a".toList ∧
    desktopPath "/home/alice".toList = "/home/alice/Desktop".toList := by
  decide

/-- C11, amended. For every home directory, every user name `u` without a path
separator and every date `d` (the part of the ISO time before its `T`, itself
without a separator), the backup path places a file named `backup-`, `u`, `-`,
`d`, `.zip` directly in the desktop directory `path.join(home, 'Desktop')`, with
`user` in the place of an empty `u`; the desktop directory is `home/Desktop` when
the home directory is absolute and normalized; and whenever the promise is
fulfilled, as it is by `close` of the output, its value is that path. -/
theorem backupFilePath_in_desktop (home u d t : JSString) (events : List StreamEvent)
    (hu : '/' ∉ u) (hdT : 'T' ∉ d) (hd : '/' ∉ d) :
    fileName (backupFilePath { homedir := home, username := u, isoNow := d ++ 'T' :: t }) =
        "backup-".toList ++ (if u = [] then "user".toList else u) ++ "-".toList ++ d ++
          ".zip".toList ∧
      parentDir (backupFilePath { homedir := home, username := u, isoNow := d ++ 'T' :: t }) =
        desktopPath home ∧
      (IsStorageRoot home → desktopPath home = home ++ "/Desktop".toList) ∧
      (∀ v, (createBackup { homedir := home, username := u, isoNow := d ++ 'T' :: t }
          events).promise = .fulfilled v →
        v = backupFilePath { homedir := home, username := u, isoNow := d ++ 'T' :: t }) ∧
      (createBackup { homedir := home, username := u, isoNow := d ++ 'T' :: t }
          [.outputClose]).promise =
        .fulfilled (backupFilePath { homedir := home, username := u, isoNow := d ++ 'T' :: t }) := by
  have hiso : isoDate (d ++ 'T' :: t) = d := isoDate_append d t hdT
  have hclean : CleanSeg (backupFilename u (d ++ 'T' :: t)) :=
    backupFilename_clean u _ hu (by rw [hiso]; exact hd)
  have hname : backupFilename u (d ++ 'T' :: t) =
      "backup-".toList ++ (if u = [] then "user".toList else u) ++ "-".toList ++ d ++
        ".zip".toList := by
    unfold backupFilename backupUsername
    rw [hiso]
    cases u <;> simp
  have hpath : backupFilePath { homedir := home, username := u, isoNow := d ++ 'T' :: t } =
      desktopPath home ++ '/' :: backupFilename u (d ++ 'T' :: t) :=
    posixJoin_posixJoin_clean home _ _ desktop_clean hclean
  refine ⟨?_, ?_, ?_, ?_, rfl⟩
  · rw [hpath, fileName_append _ _ hclean.2.1, hname]
  · rw [hpath, parentDir_append _ _ hclean.2.1]
  · intro hroot
    exact (posixJoin_normal_clean hroot.isNormalPath _ desktop_clean).1
  · intro v hv
    exact backup_fulfilled_value _ events _ (fun w hw => by cases hw) v hv

/-- The amended C11 for the user `alice` on 2025-09-27, with the home directory
`/home/alice`: the file is `backup-alice-2025-09-27.zip` in `/home/alice/Desktop`. -/
theorem backupFilePath_in_desktop_witness :
    fileName (backupFilePath
        { homedir := "/home/alice".toList
          username := "alice".toList
          isoNow := "2025-09-27".toList ++ 'T' :: "10:11:12.345Z".toList }) =
      "backup-alice-2025-09-27.zip".toList ∧
    parentDir (backupFilePath
        { homedir := "/home/alice".toList
          username := "alice".toList
          isoNow := "2025-09-27".toList ++ 'T' :: "10:11:12.345Z".toList }) =
      "/home/alice/Desktop".toList :=
  have h := backupFilePath_in_desktop "/home/alice".toList "alice".toList "2025-09-27".toList
    "10:11:12.345Z".toList [] (by decide) (by decide) (by decide)
  ⟨h.1, h.2.1.trans (h.2.2.1 (by decide))⟩


/-- The promise of `createBackup` is fulfilled only when `close` of the output is
among the events. -/
theorem createBackup_fulfilled_after_close (env : BackupEnv) (events : List StreamEvent)
    (v : JSString) (h : (createBackup env events).promise = .fulfilled v) :
    StreamEvent.outputClose ∈ events := by
  unfold createBackup at h
  cases ht : env.thrown with
  | some e => rw [ht] at h; cases h
  | none =>
    rw [ht] at h
    simp only at h
    have key : ∀ (evs : List StreamEvent) (st : BackupState),
        (evs.foldl (backupOnEvent (backupFilePath env)) st).promise = .fulfilled v →
        (∃ w, st.promise = .fulfilled w) ∨ StreamEvent.outputClose ∈ evs := by
      intro evs
      induction evs with
      | nil => intro st hst; exact Or.inl ⟨v, hst⟩
      | cons ev rest ih =>
        intro st hst
        rcases ih _ hst with ⟨w, hw⟩ | hmem
        · cases ev with
          | outputClose => right; simp
          | outputError err => left; exact ⟨w, hw⟩
          | archiveError err =>
            left
            simp only [backupOnEvent, PromiseState.settle] at hw
            cases hp : st.promise with
            | pending => rw [hp] at hw; cases hw
            | fulfilled x => exact ⟨x, rfl⟩
            | rejected r => rw [hp] at hw; cases hw
        · right; exact List.mem_cons_of_mem _ hmem
    rcases key events _ h with ⟨w, hw⟩ | hmem
    · cases hw
    · exact hmem

/-- A settled promise stays as it is. -/
theorem backup_settled_stays (path : JSString) (events : List StreamEvent) :
    ∀ st : BackupState, st.promise ≠ .pending →
      (events.foldl (backupOnEvent path) st).promise = st.promise := by
  induction events with
  | nil => intro st _; rfl
  | cons ev rest ih =>
    intro st hst
    have hstep : (backupOnEvent path st ev).promise = st.promise := by
      cases ev <;> cases hp : st.promise <;>
        simp_all [backupOnEvent, PromiseState.settle]
    rw [List.foldl_cons, ih _ (by rw [hstep]; exact hst), hstep]

/-- Once the archive has reported an error, the promise of `createBackup` is settled. -/
theorem createBackup_settled_after_archive_error (env : BackupEnv)
    (before after : List StreamEvent) (err : JSError) :
    (createBackup env (before ++ .archiveError err :: after)).promise ≠ .pending := by
  unfold createBackup
  cases env.thrown with
  | some e => simp
  | none =>
    simp only [List.foldl_append, List.foldl_cons]
    have hstep : ∀ st : BackupState,
        (backupOnEvent (backupFilePath env) st (.archiveError err)).promise ≠ .pending := by
      intro st
      cases hp : st.promise <;> simp [backupOnEvent, PromiseState.settle, hp]
    rw [backup_settled_stays _ after _ (hstep _)]
    exact hstep _

/-- C12 (fails on the code). When the output stream reports an error, as it does
for a desktop directory that does not exist, the promise of `createBackup` is not
rejected: no listener is registered for that event, the promise stays pending
and the error goes unhandled. An error of the archive rejects the promise, and
`close` of the output fulfils it. -/
theorem createBackup_output_error_not_rejected :
    createBackup
        { homedir := "/home/alice".toList
          username := "alice".toList
          isoNow := "2025-09-27T10:11:12.345Z".toList }
        [.outputError { message := "ENOENT: no such file or directory", statusCode := none }] =
      { promise := .pending
        unhandled := [{ message := "ENOENT: no such file or directory", statusCode := none }] } ∧
    (createBackup
        { homedir := "/home/alice".toList
          username := "alice".toList
          isoNow := "2025-09-27T10:11:12.345Z".toList }
        [.archiveError { message := "EACCES: permission denied", statusCode := none }]).promise =
      .rejected { message := "EACCES: permission denied", statusCode := none } ∧
    (createBackup
        { homedir := "/home/alice".toList
          username := "alice".toList
          isoNow := "2025-09-27T10:11:12.345Z".toList }
        [.outputClose]).promise =
      .fulfilled "/home/alice/Desktop/backup-alice-2025-09-27.zip".toList := by
  decide

/-! ## The error handler (C13) -/

/-- C13, as stated, fails. For an error with the status 42 the call
`res.status(42).json(body)` throws and no response goes out; the same happens for
any error once the headers of the response have been sent; and for an error with
the status 204 the response goes out without a body. -/
theorem errorHandler_without_structured_failure :
    errorHandler false { message := "odd", statusCode := some 42 } = none ∧
    errorHandler true forbiddenError = none ∧
    errorHandler false { message := "empty", statusCode := some 204 } =
      some { status := 204, body := none } := by
  decide

/-- C13, amended. For every error that reaches `errorHandler` before the headers of
the response are sent and whose status is absent, `0`, or a status from 200 to
999 other than 204, 205 and 304, the response goes out with a body; its HTTP
status is the `statusCode` field of the body, which is the status of the error
when that is a number other than `0` and 500 otherwise; the `status` field of the
body is `error`, and its message is the message of the error, or the default
text when the error has no message. -/
theorem errorHandler_response (err : JSError)
    (hcode : err.statusCode = none ∨ err.statusCode = some 0 ∨
      ∃ n, err.statusCode = some n ∧ 200 ≤ n ∧ n ≤ 999 ∧ n ≠ 204 ∧ n ≠ 205 ∧ n ≠ 304) :
    ∃ body : ErrorBody,
      errorHandler false err = some { status := body.statusCode, body := some body } ∧
      (∀ n, err.statusCode = some n → n ≠ 0 → body.statusCode = n) ∧
      (err.statusCode = none ∨ err.statusCode = some 0 → body.statusCode = 500) ∧
      body.status = "error" ∧
      (err.message ≠ "" → body.message = err.message) ∧
      (err.message = "" → body.message = "An unexpected error occurred on the server.") := by
  refine ⟨{ status := "error"
            statusCode := statusCodeOr err.statusCode 500
            message := messageOr err.message "An unexpected error occurred on the server." },
    ?_, ?_, ?_, rfl, ?_, ?_⟩
  · have hsc : 200 ≤ statusCodeOr err.statusCode 500 ∧ statusCodeOr err.statusCode 500 ≤ 999 ∧
        statusWithoutBody (statusCodeOr err.statusCode 500) = false := by
      rcases hcode with h | h | ⟨n, h, h1, h2, h3, h4, h5⟩
      · rw [h]; decide
      · rw [h]; decide
      · have h0 : n ≠ 0 := by omega
        have e : statusCodeOr (some n) 500 = n := by simp [statusCodeOr, h0]
        rw [h, e]
        refine ⟨h1, h2, ?_⟩
        have h6 : ¬ n < 200 := by omega
        simp [statusWithoutBody, h3, h4, h5, h6]
    obtain ⟨h1, h2, h3⟩ := hsc
    have hr : ¬ (statusCodeOr err.statusCode 500 < 100 ∨ 999 < statusCodeOr err.statusCode 500) := by
      omega
    simp only [errorHandler, statusJson, hr, if_false, h3, Bool.false_eq_true]
  · intro n hn h0
    simp [statusCodeOr, hn, h0]
  · rintro (h | h) <;> simp [statusCodeOr, h]
  · intro h
    simp [messageOr, h]
  · intro h
    simp [messageOr, h]

/-- The amended C13 on the 403 error of `pathValidator`: the response has the status
403 and a body with that status and the message of the error. -/
theorem errorHandler_response_witness :
    ∃ body : ErrorBody,
      errorHandler false forbiddenError = some { status := body.statusCode, body := some body } ∧
      body.statusCode = 403 ∧ body.status = "error" ∧
      body.message = "Forbidden: Access to this path is not allowed." := by
  obtain ⟨body, h1, h2, _, h4, h5, _⟩ := errorHandler_response forbiddenError
    (Or.inr (Or.inr ⟨403, rfl, by decide, by decide, by decide, by decide, by decide⟩))
  exact ⟨body, h1, h2 403 rfl (by decide), h4, h5 (by decide)⟩

end NexaTask
